import Mathlib

/-
Verification of the core algorithms of the d3-angular circular-pack chart
(`CircularPackChart` in the chart renderer source file).

The embedding models:
  * the text fitter `processWordForFit` together with the per-node label
    logic of `addTextLabels` (the multi-line greedy placement),
  * the quadrant layout optimizer `calculateOptimalPositions` (quadrant
    bounds, seeding, pairwise repulsion forces, clamping, the iteration
    loop with its convergence break),
  * `positionRegionCircles` (recording original centers, applying the
    computed positions to region circles and rigidly translating their
    descendants), and
  * the stroke-width formulas of `drawNodes` and `resize`.

Modelling conventions:
  * JavaScript strings are sequences of characters, modelled as `List Char`
    (called `Str` below).
  * JavaScript numbers are modelled as rationals (`ℚ`); `Math.sqrt` is not
    rational-valued, so every definition that needs it is parameterised by
    a square-root oracle `sq : ℚ → ℚ` applied to the squared distance.
    Theorems that depend on actual square-root values either hold for all
    oracles or are evaluated on inputs where all arguments of `sq` are
    perfect squares, using the exact `ratSqrt` below.
  * JavaScript `Map` objects are association lists with `set` replacing
    the first existing binding (insertion order preserved), matching Map
    semantics.
  * The text-measurement capability `getTextWidth` (a canvas API call) is
    external to the repository; it is modelled as an abstract parameter
    `tw : Str → ℚ → ℚ` (text and font size to pixel width).
  * d3 hierarchy nodes are `CNode` records in a flat list (the
    `descendants()` array); object identity becomes list-index identity
    and `parent` is an optional index into the same list.
  * A thrown exception is an `Except.error`; normal completion is
    `Except.ok`.
-/

set_option maxRecDepth 4000

namespace Pack

/-- JavaScript strings, modelled as their character sequences. -/
abbrev Str := List Char

/-- The three-dot ellipsis string `"..."` used by the text fitter. -/
def ell : Str := ['.', '.', '.']

/-- The two-dot degraded marker `".."` used by the fallback branch. -/
def twoDots : Str := ['.', '.']

/-- The truncation scan of `processWordForFit`: `for (let i = word.length;
i > 0; i--)` tests `word.substring(0, i) + '...'` and keeps the first
(hence longest) fitting candidate; if none fits, `truncated` keeps its
initial value `word`. `i` is the current candidate length. -/
def truncLoop (tw : Str → ℚ → ℚ) (word : Str) (maxWidth fontSize : ℚ) (i : Nat) : Str :=
  if i = 0 then word
  else if tw (word.take i ++ ell) fontSize ≤ maxWidth then word.take i ++ ell
  else truncLoop tw word maxWidth fontSize (i - 1)
termination_by i
decreasing_by omega

/-- `CircularPackChart.processWordForFit(word, maxWidth, fontSize, radius,
forceEllipses)`. Returns the word unchanged when it fits and ellipses are
not forced; otherwise truncates via `truncLoop`; when even the kept
candidate overflows, falls back to the empty string (radius < 6) or to
`word.charAt(0) + '..'`. -/
def processWordForFit (tw : Str → ℚ → ℚ) (word : Str)
    (maxWidth fontSize radius : ℚ) (forceEllipses : Bool) : Str :=
  if forceEllipses = false ∧ tw word fontSize ≤ maxWidth then word
  else
    let truncated := truncLoop tw word maxWidth fontSize word.length
    if tw truncated fontSize > maxWidth then
      if radius < 6 then [] else word.take 1 ++ twoDots
    else truncated

/-- Decides whether `pat` occurs at the start of `s` (helper for the
substring test used to model JavaScript `String.includes`). -/
def isPrefixSub : Str → Str → Bool
  | [], _ => true
  | _ :: _, [] => false
  | a :: as, b :: bs => a = b && isPrefixSub as bs

/-- JavaScript `s.includes(pat)`: `pat` occurs contiguously in `s`. -/
def containsSub (pat : Str) : Str → Bool
  | [] => isPrefixSub pat []
  | c :: rest => isPrefixSub pat (c :: rest) || containsSub pat rest

/-- JavaScript `name.split(' ')`: splits at every single space, keeping
empty fragments (`"".split(' ')` is `[""]`). -/
def splitChar : Str → List Str
  | [] => [[]]
  | c :: rest =>
    match splitChar rest with
    | [] => [[]]
    | w :: ws => if c = ' ' then [] :: w :: ws else (c :: w) :: ws

/-- The greedy word-placement loop of `addTextLabels`: `for (let i = 0;
i < words.length && lines.length < 2; i++)`. A processed word containing
`'...'` (or empty) is pushed when nonempty and the loop breaks; otherwise
the word is pushed and the loop continues. -/
def buildLines (tw : Str → ℚ → ℚ) (maxWidth fontSize radius : ℚ) :
    List Str → List Str → List Str
  | [], lines => lines
  | w :: ws, lines =>
    if 2 ≤ lines.length then lines
    else
      let processedWord := processWordForFit tw w maxWidth fontSize radius false
      if containsSub ell processedWord = true ∨ processedWord = [] then
        (if processedWord = [] then lines else lines ++ [processedWord])
      else buildLines tw maxWidth fontSize radius ws (lines ++ [processedWord])

/-- The per-node label logic of `addTextLabels` for a node with name
`name` and radius `r`: `fontSize = max(8, r / 4)`, `maxWidth = r * 1.6`;
a single word is fitted directly, multiple words go through `buildLines`
and the unplaced-words post-processing on the last line. -/
def addTextLabelLines (tw : Str → ℚ → ℚ) (name : Str) (r : ℚ) : List Str :=
  let fontSize := max 8 (r / 4)
  let maxWidth := r * (8 / 5)
  let words := splitChar name
  if words.length = 1 then
    [processWordForFit tw (words.headD []) maxWidth fontSize r false]
  else
    let lines := buildLines tw maxWidth fontSize r words []
    if words.length > lines.length ∧ lines.length = 2 ∧
        ¬ containsSub ell (lines.getLastD []) = true then
      let lastLine := lines.getLastD []
      let withEllipses := lastLine ++ ell
      if tw withEllipses fontSize ≤ maxWidth then
        lines.dropLast ++ [withEllipses]
      else
        lines.dropLast ++ [processWordForFit tw lastLine maxWidth fontSize r true]
    else lines

/-- A point `{x, y}`. -/
structure Pt where
  x : ℚ
  y : ℚ
deriving DecidableEq, Repr

/-- The four quadrant names of the geographic assignment. -/
inductive Quadrant
  | top
  | bottom
  | left
  | right
deriving DecidableEq, Repr

/-- The bound record of `quadrantBounds` (field order as in the source). -/
structure Bounds where
  centerX : ℚ
  centerY : ℚ
  maxX : ℚ
  maxY : ℚ
  minX : ℚ
  minY : ℚ
deriving DecidableEq, Repr

/-- The `quadrantBounds` table of `calculateOptimalPositions`, with
`margin = 20`, `centreX = packWidth / 2`, `centreY = packHeight / 2`. -/
def quadrantBounds (packWidth packHeight : ℚ) : Quadrant → Bounds :=
  let centreX := packWidth / 2
  let centreY := packHeight / 2
  let margin : ℚ := 20
  fun q =>
    match q with
    | .top =>
      ⟨centreX, centreY * (1 / 2), packWidth - margin, centreY - margin, margin, margin⟩
    | .bottom =>
      ⟨centreX, centreY * (3 / 2), packWidth - margin, packHeight - margin, margin,
        centreY + margin⟩
    | .left =>
      ⟨centreX * (1 / 2), centreY, centreX - margin, packHeight - margin, margin, margin⟩
    | .right =>
      ⟨centreX * (3 / 2), centreY, packWidth - margin, packHeight - margin,
        centreX + margin, margin⟩

/-- One entry of the `regions` array of `calculateOptimalPositions`:
`{name, radius, quadrant}` (the back-reference `node` is not needed by the
algorithm itself). The quadrant field holds the already-resolved quadrant;
`resolveRegions` below performs the `quadrants[node.data.name]` lookup. -/
structure Region where
  name : Str
  radius : ℚ
  quadrant : Quadrant
deriving DecidableEq, Repr

/-- Association list modelling a JavaScript `Map` with `Str` keys:
`set` replaces the first existing binding in place, else appends. -/
def mapSet {α : Type} : List (Str × α) → Str → α → List (Str × α)
  | [], k, v => [(k, v)]
  | (k', v') :: rest, k, v =>
    if k' = k then (k, v) :: rest else (k', v') :: mapSet rest k v

/-- `Map.get`, returning `none` for an absent key. -/
def mapGet {α : Type} : List (Str × α) → Str → Option α
  | [], _ => none
  | (k', v') :: rest, k => if k' = k then some v' else mapGet rest k

/-- The `positions` map of the optimizer. -/
abbrev PosMap := List (Str × Pt)

/-- The `forces` map of one optimizer iteration (`fx`, `fy` per name). -/
abbrev FMap := List (Str × Pt)

/-- Seeding of `positions`: each region starts at its quadrant's default
centre `{x: bounds.centerX, y: bounds.centerY}`. -/
def seedPositions (packWidth packHeight : ℚ) : List Region → PosMap → PosMap
  | [], m => m
  | r :: rs, m =>
    let bounds := quadrantBounds packWidth packHeight r.quadrant
    seedPositions packWidth packHeight rs (mapSet m r.name ⟨bounds.centerX, bounds.centerY⟩)

/-- Force-map initialisation: `{fx: 0, fy: 0}` for every region name. -/
def initForces : List Region → FMap → FMap
  | [], m => m
  | r :: rs, m => initForces rs (mapSet m r.name ⟨0, 0⟩)

/-- `forces.get(name)!.fx += dx` etc.: adds `d` to the stored force.
The `none` case cannot occur because `initForces` seeds every region
name consulted by the pair loop. -/
def fAdd (m : FMap) (k : Str) (d : Pt) : FMap :=
  match mapGet m k with
  | some v => mapSet m k ⟨v.x + d.x, v.y + d.y⟩
  | none => m

/-- The ordered pairs `(regions[i], regions[j])` with `i < j`, in the
iteration order of the nested `for` loops. -/
def allPairs : List Region → List (Region × Region)
  | [] => []
  | r :: rs => rs.map (fun s => (r, s)) ++ allPairs rs

/-- The body of the pair loop: Euclidean distance via the square-root
oracle `sq`, `bufferDist = 30`, normalised repulsion
`force = max(0, requiredDistance - distance) / distance`, components
scaled by `forceStrength = 2` and split evenly (`/ 2`), added to the first
region's force and subtracted from the second's. Nothing happens when the
distance is zero. Absent position entries cannot occur (every region name
is seeded); the wildcard branch mirrors that dead path. -/
def pairForce (sq : ℚ → ℚ) (pos : PosMap) (f : FMap) (pr : Region × Region) : FMap :=
  match mapGet pos pr.1.name, mapGet pos pr.2.name with
  | some pos1, some pos2 =>
    let dx := pos1.x - pos2.x
    let dy := pos1.y - pos2.y
    let distance := sq (dx * dx + dy * dy)
    if 0 < distance then
      let bufferDist : ℚ := 30
      let requiredDistance := pr.1.radius + pr.2.radius + bufferDist
      let force := max 0 (requiredDistance - distance) / distance
      let forceStrength : ℚ := 2
      let fx := dx * force * forceStrength / 2
      let fy := dy * force * forceStrength / 2
      fAdd (fAdd f pr.1.name ⟨fx, fy⟩) pr.2.name ⟨-fx, -fy⟩
    else f
  | _, _ => f

/-- Folds `pairForce` over the pair list. -/
def forcePairs (sq : ℚ → ℚ) (pos : PosMap) : List (Region × Region) → FMap → FMap
  | [], f => f
  | pr :: rest, f => forcePairs sq pos rest (pairForce sq pos f pr)

/-- The complete force computation of one iteration. -/
def computeForces (sq : ℚ → ℚ) (regions : List Region) (pos : PosMap) : FMap :=
  forcePairs sq pos (allPairs regions) (initForces regions [])

/-- The clamping step: `paddingDist = 5`, `effectiveRadius = radius + 5`,
`newX = max(minX + eff, min(maxX - eff, newX))` and likewise for `y`. -/
def clampPt (packWidth packHeight : ℚ) (r : Region) (p : Pt) : Pt :=
  let bounds := quadrantBounds packWidth packHeight r.quadrant
  let paddingDist : ℚ := 5
  let effectiveRadius := r.radius + paddingDist
  ⟨max (bounds.minX + effectiveRadius) (min (bounds.maxX - effectiveRadius) p.x),
    max (bounds.minY + effectiveRadius) (min (bounds.maxY - effectiveRadius) p.y)⟩

/-- The force-application loop of one iteration: for each region in order,
read its current position, add its force, clamp to the quadrant bounds,
store the new position and accumulate
`|newX - currentPos.x| + |newY - currentPos.y|` into `totalMovement`.
Absent entries cannot occur for seeded maps; the skip branch mirrors that
dead path. -/
def applyForces (packWidth packHeight : ℚ) (forces : FMap) :
    List Region → PosMap → ℚ → PosMap × ℚ
  | [], pos, tm => (pos, tm)
  | r :: rs, pos, tm =>
    match mapGet pos r.name, mapGet forces r.name with
    | some currentPos, some force =>
      let np := clampPt packWidth packHeight r
        ⟨currentPos.x + force.x, currentPos.y + force.y⟩
      let movement := abs (np.x - currentPos.x) + abs (np.y - currentPos.y)
      applyForces packWidth packHeight forces rs (mapSet pos r.name np) (tm + movement)
    | _, _ => applyForces packWidth packHeight forces rs pos tm

/-- Result of the optimisation loop. The source returns only the map;
`convergedEarly` records whether the loop exited through the
`totalMovement < 1` break, and `lastMovement` is the total movement of the
final executed iteration (0 when the iteration cap was exhausted). -/
structure OptimResult where
  positions : PosMap
  convergedEarly : Bool
  lastMovement : ℚ
deriving Repr

/-- The iteration loop of `calculateOptimalPositions`: up to `fuel`
iterations of force computation plus application; breaks early when the
iteration's total movement falls below 1. -/
def optimLoop (sq : ℚ → ℚ) (regions : List Region) (packWidth packHeight : ℚ)
    (fuel : Nat) (pos : PosMap) : OptimResult :=
  if fuel = 0 then ⟨pos, false, 0⟩
  else
    match applyForces packWidth packHeight (computeForces sq regions pos) regions pos 0 with
    | (pos2, totalMovement) =>
      if totalMovement < 1 then ⟨pos2, true, totalMovement⟩
      else optimLoop sq regions packWidth packHeight (fuel - 1) pos2
termination_by fuel
decreasing_by omega

/-- `calculateOptimalPositions` on already-resolved regions:
seeds the positions, then runs up to `maxIterations = 50` iterations. -/
def calculateOptimalPositions (sq : ℚ → ℚ) (regions : List Region)
    (packWidth packHeight : ℚ) : OptimResult :=
  optimLoop sq regions packWidth packHeight 50 (seedPositions packWidth packHeight regions [])

/-- A packed hierarchy node (`d3.HierarchyCircularNode`): display name
(`data.name`), `depth`, centre `x`/`y`, radius `r`, and the parent as an
optional index into the flat `descendants()` list (object identity in the
source becomes index identity here). -/
structure CNode where
  name : Str
  depth : Nat
  x : ℚ
  y : ℚ
  r : ℚ
  parent : Option Nat
deriving DecidableEq, Repr

/-- The parent index of the node at index `c` (absent when the index has no
node behind it or the node is the root). -/
def parentIdx (nodes : List CNode) (c : Nat) : Option Nat :=
  match nodes[c]? with
  | some n => n.parent
  | none => none

/-- Walks the parent chain of `isDescendantOf`: `current = node.parent;
while (current) { if (current === ancestor) return true;
current = current.parent; }`. The fuel bound `nodes.length` covers every
chain of distinct nodes; the source loop only terminates on such chains.
A parent index with no node behind it has no object counterpart and ends
the walk. -/
def isDescChain (nodes : List CNode) : Nat → Option Nat → Nat → Bool
  | 0, _, _ => false
  | fuel + 1, cur, anc =>
    match cur with
    | none => false
    | some c =>
      if c = anc then true
      else isDescChain nodes fuel (parentIdx nodes c) anc

/-- `CircularPackChart.isDescendantOf(node, ancestor)` on list indices. -/
def isDescendantOf (nodes : List CNode) (i anc : Nat) : Bool :=
  if (nodes[i]?).isSome then isDescChain nodes nodes.length (parentIdx nodes i) anc
  else false

/-- Indices of the region circles: `this.nodes.filter(d => d.depth === 1)`
as the index list, in order. -/
def regionIndices (nodes : List CNode) : List Nat :=
  (List.range nodes.length).filter fun i =>
    match nodes[i]? with
    | some n => n.depth == 1
    | none => false

/-- The four keys of the `quadrants` literal of `positionRegionCircles`. -/
def strNorthernEurope : Str := "Northern Europe".data

/-- Region name `"Western Europe"`. -/
def strWesternEurope : Str := "Western Europe".data

/-- Region name `"Eastern Europe"`. -/
def strEasternEurope : Str := "Eastern Europe".data

/-- Region name `"Southern Europe"`. -/
def strSouthernEurope : Str := "Southern Europe".data

/-- The fixed `quadrants` mapping of `positionRegionCircles`. -/
def quadrantAssignment (n : Str) : Option Quadrant :=
  if n = strNorthernEurope then some .top
  else if n = strWesternEurope then some .left
  else if n = strEasternEurope then some .right
  else if n = strSouthernEurope then some .bottom
  else none

/-- The `regions = regionNodes.map(...)` construction: resolves
`quadrants[node.data.name]` for every region index. In the source an
unassigned name produces `undefined` and the later
`quadrantBounds[region.quadrant].centerX` access throws; here resolution
fails up front with `none` and `positionRegionCircles` converts that into
the corresponding error. (`node.r || 0` is the identity on rationals,
since `0 || 0` is `0`.) An index with no node behind it cannot occur
(indices come from `regionIndices`). -/
def resolveRegions (nodes : List CNode) : List Nat → Option (List Region)
  | [] => some []
  | ri :: rest =>
    match nodes[ri]? with
    | none => resolveRegions nodes rest
    | some rn =>
      match quadrantAssignment rn.name with
      | none => none
      | some q => (resolveRegions nodes rest).map (fun rs => ⟨rn.name, rn.r, q⟩ :: rs)

/-- The `originalPositions` map of `positionRegionCircles`:
`{x: regionNode.x || centreX, y: regionNode.y || centreY}` — the
JavaScript `||` replaces a zero (or missing) coordinate by the container
centre. The source keys the map by region-node object; the model is a
total function on indices, read only at region indices. -/
def originalPos (nodes : List CNode) (centreX centreY : ℚ) (i : Nat) : Pt :=
  match nodes[i]? with
  | some n => ⟨if n.x = 0 then centreX else n.x, if n.y = 0 then centreY else n.y⟩
  | none => ⟨centreX, centreY⟩

/-- Replaces the node at index `i` by `f` of it. -/
def updAt (i : Nat) (f : CNode → CNode) : List CNode → List CNode
  | [] => []
  | n :: rest =>
    match i with
    | 0 => f n :: rest
    | i' + 1 => n :: updAt i' f rest

/-- Indexed map helper (`k` is the index of the list head). -/
def mapIdxAux (f : Nat → CNode → CNode) (k : Nat) : List CNode → List CNode
  | [] => []
  | n :: rest => f k n :: mapIdxAux f (k + 1) rest

/-- The child-update pass for one region: every node of depth `> 1` that
is a descendant of `ri` is moved to `newPos` plus its offset from the
recorded original centre (`childNode.x !== undefined` is always true
here, coordinates being total). -/
def updChildren (ri : Nat) (newPos orig : Pt) (nodes : List CNode) : List CNode :=
  mapIdxAux
    (fun j n =>
      if 1 < n.depth ∧ isDescendantOf nodes j ri = true then
        { n with x := newPos.x + (n.x - orig.x), y := newPos.y + (n.y - orig.y) }
      else n) 0 nodes

/-- The `regionNodes.forEach` application pass of `positionRegionCircles`:
for each region index in order, when `regionNode.data.name` is truthy and
`positions.has(name)` holds, read the new position (the `if (!newPos)
throw` branch of the source sits behind the `has` guard and is modelled by
the `none` arm), move the region, then rigidly translate its descendants.
Regions failing the guard are skipped. An index with no node behind it
cannot occur. -/
def applyRegions (origs : Nat → Pt) (positions : PosMap) :
    List Nat → List CNode → Except String (List CNode)
  | [], nodes => .ok nodes
  | ri :: rest, nodes =>
    match nodes[ri]? with
    | none => applyRegions origs positions rest nodes
    | some rn =>
      if rn.name ≠ [] ∧ (mapGet positions rn.name).isSome then
        match mapGet positions rn.name with
        | none => .error "Node position could not be calculated"
        | some newPos =>
          applyRegions origs positions rest
            (updChildren ri newPos (origs ri)
              (updAt ri (fun n => { n with x := newPos.x, y := newPos.y }) nodes))
      else applyRegions origs positions rest nodes

/-- `CircularPackChart.positionRegionCircles(packWidth, packHeight)`:
early return on an empty node list or no region circles; otherwise record
original centres, compute optimal positions for the resolved regions and
apply them. A region name absent from the fixed quadrant map makes the
source throw inside `calculateOptimalPositions` (reading bounds of
`undefined`); the model surfaces that as an error before the loop. -/
def positionRegionCircles (sq : ℚ → ℚ) (nodes : List CNode)
    (packWidth packHeight : ℚ) : Except String (List CNode) :=
  if nodes.length = 0 then .ok nodes
  else if (regionIndices nodes).length = 0 then .ok nodes
  else
    match resolveRegions nodes (regionIndices nodes) with
    | none => .error "TypeError: cannot read properties of undefined"
    | some regions =>
      applyRegions (originalPos nodes (packWidth / 2) (packHeight / 2))
        (calculateOptimalPositions sq regions packWidth packHeight).positions
        (regionIndices nodes) nodes

/-- Stroke width as computed inside `drawNodes(width, height)`:
`size = Math.min(width, height)`, `baseWidth = Math.max(0.5, size * 0.001)`,
doubled when the node has children (region circles). -/
def strokeWidthDrawNodes (width height : ℚ) (isRegionCircle : Bool) : ℚ :=
  let size := min width height
  let baseWidth := max (1 / 2) (size * (1 / 1000))
  if isRegionCircle then baseWidth * 2 else baseWidth

/-- Stroke width on the initial render path: `render` computes
`rectWidth = Math.min(width, height) * 1.2` and
`rectHeight = Math.min(width, height) * 0.8` from the container size and
calls `drawNodes(rectWidth, rectHeight)`. -/
def strokeWidthRenderPath (width height : ℚ) (isRegionCircle : Bool) : ℚ :=
  let rectWidth := min width height * (6 / 5)
  let rectHeight := min width height * (4 / 5)
  strokeWidthDrawNodes rectWidth rectHeight isRegionCircle

/-- Stroke width on the resize path: `resize` sets
`size = Math.min(width, height)` from the container size and applies the
same `max(0.5, size * 0.001)` formula, doubled for region circles. -/
def strokeWidthResizePath (width height : ℚ) (isRegionCircle : Bool) : ℚ :=
  let size := min width height
  let baseWidth := max (1 / 2) (size * (1 / 1000))
  if isRegionCircle then baseWidth * 2 else baseWidth

/-- Exact square root on perfect-square naturals (linear search), used as
the square-root oracle on concrete runs whose distances are all perfect
squares; elsewhere the oracle stays abstract. -/
def natSqrtL (n : Nat) : Nat :=
  (List.range (n + 1)).foldl (fun a k => if k * k ≤ n then k else a) 0

/-- Rational square-root oracle: exact on integers that are perfect
squares (the only values reached in the concrete runs below). -/
def ratSqrt (q : ℚ) : ℚ :=
  if q.den = 1 ∧ 0 ≤ q.num then (natSqrtL q.num.toNat : ℚ) else 0

/-! ### General lemmas about the text fitter -/

theorem truncLoop_shape (tw : Str → ℚ → ℚ) (word : Str) (maxWidth fontSize : ℚ) :
    ∀ i, truncLoop tw word maxWidth fontSize i = word ∨
      ∃ k, 1 ≤ k ∧ k ≤ i ∧ truncLoop tw word maxWidth fontSize i = word.take k ++ ell := by
  intro i
  induction i using Nat.strong_induction_on with
  | _ i ih =>
    rw [truncLoop]
    by_cases h0 : i = 0
    · rw [if_pos h0]; exact Or.inl rfl
    · rw [if_neg h0]
      by_cases hfit : tw (word.take i ++ ell) fontSize ≤ maxWidth
      · rw [if_pos hfit]
        exact Or.inr ⟨i, by omega, le_rfl, rfl⟩
      · rw [if_neg hfit]
        rcases ih (i - 1) (by omega) with h | ⟨k, hk1, hk2, hk3⟩
        · exact Or.inl h
        · exact Or.inr ⟨k, hk1, by omega, hk3⟩

theorem truncLoop_none (tw : Str → ℚ → ℚ) (word : Str) (maxWidth fontSize : ℚ) :
    ∀ i, (∀ k, 1 ≤ k → k ≤ i → maxWidth < tw (word.take k ++ ell) fontSize) →
      truncLoop tw word maxWidth fontSize i = word := by
  intro i
  induction i using Nat.strong_induction_on with
  | _ i ih =>
    intro h
    rw [truncLoop]
    by_cases h0 : i = 0
    · rw [if_pos h0]
    · rw [if_neg h0,
        if_neg (not_le.mpr (h i (by omega) le_rfl))]
      exact ih (i - 1) (by omega) (fun k hk1 hk2 => h k hk1 (by omega))

theorem truncLoop_finds (tw : Str → ℚ → ℚ) (word : Str) (maxWidth fontSize : ℚ)
    (k : Nat) (hk1 : 1 ≤ k)
    (hfit : tw (word.take k ++ ell) fontSize ≤ maxWidth) :
    ∀ i, k ≤ i → (∀ j, k < j → j ≤ i → maxWidth < tw (word.take j ++ ell) fontSize) →
      truncLoop tw word maxWidth fontSize i = word.take k ++ ell := by
  intro i
  induction i using Nat.strong_induction_on with
  | _ i ih =>
    intro hki hmax
    rw [truncLoop, if_neg (by omega : ¬ i = 0)]
    rcases eq_or_lt_of_le hki with heq | hlt
    · subst heq; rw [if_pos hfit]
    · rw [if_neg (not_le.mpr (hmax i hlt le_rfl))]
      exact ih (i - 1) (by omega) (by omega) (fun j hj1 hj2 => hmax j hj1 (by omega))

/-! ### Claims C4, C10, C5 about `processWordForFit` -/

/-- C4: for every word, maxWidth, fontSize, radius and forceEllipsis flag, the
string returned by `processWordForFit` either has rendered width (per the
text-measurement function) at most maxWidth, or radius < 6 and the result is
the empty string, or the result is exactly the word's first character followed
by two dots. -/
theorem claim_C4 (tw : Str → ℚ → ℚ) (word : Str) (maxWidth fontSize radius : ℚ)
    (force : Bool) :
    tw (processWordForFit tw word maxWidth fontSize radius force) fontSize ≤ maxWidth
    ∨ (radius < 6 ∧ processWordForFit tw word maxWidth fontSize radius force = [])
    ∨ processWordForFit tw word maxWidth fontSize radius force = word.take 1 ++ twoDots := by
  unfold processWordForFit
  by_cases h1 : force = false ∧ tw word fontSize ≤ maxWidth
  · rw [if_pos h1]; exact Or.inl h1.2
  · rw [if_neg h1]
    simp only []
    by_cases h2 :
        tw (truncLoop tw word maxWidth fontSize word.length) fontSize > maxWidth
    · rw [if_pos h2]
      by_cases h3 : radius < 6
      · rw [if_pos h3]; exact Or.inr (Or.inl ⟨h3, rfl⟩)
      · rw [if_neg h3]; exact Or.inr (Or.inr rfl)
    · rw [if_neg h2]; exact Or.inl (not_lt.mp h2)

/-- C10: for every input, the string returned by `processWordForFit` is one of
four shapes — the word unchanged, a nonempty prefix of the word followed by
`"..."`, the first character followed by `".."`, or the empty string, the
latter only produced by the small-radius fallback (radius < 6); and when
forceEllipsis is true but no prefix-plus-`"..."` candidate fits while the bare
word's width is within maxWidth, the word is returned unchanged. -/
theorem claim_C10 (tw : Str → ℚ → ℚ) (word : Str) (maxWidth fontSize radius : ℚ)
    (force : Bool) :
    (processWordForFit tw word maxWidth fontSize radius force = word
      ∨ (∃ k, 1 ≤ k ∧ k ≤ word.length ∧
          processWordForFit tw word maxWidth fontSize radius force = word.take k ++ ell)
      ∨ processWordForFit tw word maxWidth fontSize radius force = word.take 1 ++ twoDots
      ∨ (processWordForFit tw word maxWidth fontSize radius force = [] ∧ radius < 6))
    ∧ (force = true →
        (∀ k, k ≤ word.length → maxWidth < tw (word.take k ++ ell) fontSize) →
        tw word fontSize ≤ maxWidth →
        processWordForFit tw word maxWidth fontSize radius force = word) := by
  constructor
  · unfold processWordForFit
    by_cases h1 : force = false ∧ tw word fontSize ≤ maxWidth
    · rw [if_pos h1]; exact Or.inl rfl
    · rw [if_neg h1]
      simp only []
      by_cases h2 :
          tw (truncLoop tw word maxWidth fontSize word.length) fontSize > maxWidth
      · rw [if_pos h2]
        by_cases h3 : radius < 6
        · rw [if_pos h3]; exact Or.inr (Or.inr (Or.inr ⟨rfl, h3⟩))
        · rw [if_neg h3]; exact Or.inr (Or.inr (Or.inl rfl))
      · rw [if_neg h2]
        rcases truncLoop_shape tw word maxWidth fontSize word.length with h | ⟨k, hk1, hk2, hk3⟩
        · rw [h]; exact Or.inl rfl
        · rw [hk3]; exact Or.inr (Or.inl ⟨k, hk1, hk2, rfl⟩)
  · intro hforce hnofit hword
    unfold processWordForFit
    rw [if_neg (by simp [hforce])]
    simp only []
    rw [truncLoop_none tw word maxWidth fontSize word.length
      (fun k _ hk2 => hnofit k hk2)]
    rw [if_neg (not_lt.mpr hword)]

/-- C10 witness: a concrete forced-ellipsis call where no candidate fits but
the bare word does, so the word comes back unchanged (second conjunct), and the
shape disjunction holds (first conjunct). -/
theorem claim_C10_witness :
    processWordForFit (fun s _ => (s.length : ℚ)) ['a', 'b'] (5 / 2) 0 10 true =
      ['a', 'b'] := by
  have h := (claim_C10 (fun s _ => (s.length : ℚ)) ['a', 'b'] (5 / 2) 0 10 true).2
  refine h rfl ?_ (by norm_num)
  intro k hk
  norm_num at hk
  interval_cases k <;> norm_num [ell]

/-- Width oracle measuring a string by its character count (a valid
monotone measurement, used for concrete text-fitter runs). -/
def twLen : Str → ℚ → ℚ := fun s _ => (s.length : ℚ)

/-- C5 counterexample. The claim says: whenever some prefix `p` of the word
satisfies `width (p ++ "...") ≤ maxWidth`, the fitter returns the longest such
prefix followed by `"..."` (scan from full length down to zero, as the spec
words it). With the character-count width, word `"ab"`, maxWidth `7/2` and
forced ellipsis, the empty prefix is the only fitting one (width 3 ≤ 7/2,
while lengths 1 and 2 give widths 4 and 5), so the claim demands `"..."`; the
code's scan stops at prefix length 1 and returns the word `"ab"` unchanged. -/
theorem claim_C5_cex :
    processWordForFit twLen ['a', 'b'] (7 / 2) 0 10 true = ['a', 'b']
    ∧ twLen (List.take 0 ['a', 'b'] ++ ell) 0 ≤ 7 / 2
    ∧ (7 / 2 : ℚ) < twLen (List.take 1 ['a', 'b'] ++ ell) 0
    ∧ (7 / 2 : ℚ) < twLen (List.take 2 ['a', 'b'] ++ ell) 0
    ∧ processWordForFit twLen ['a', 'b'] (7 / 2) 0 10 true ≠ List.take 0 ['a', 'b'] ++ ell := by
  have hword : processWordForFit twLen ['a', 'b'] (7 / 2) 0 10 true = ['a', 'b'] := by
    unfold processWordForFit
    rw [if_neg (by simp)]
    simp only []
    rw [truncLoop_none twLen ['a', 'b'] (7 / 2) 0 (List.length ['a', 'b']) ?_]
    · rw [if_neg (by norm_num [twLen])]
    · intro k hk1 hk2
      norm_num at hk2
      interval_cases k <;> norm_num [twLen, ell]
  refine ⟨hword, by norm_num [twLen, ell], by norm_num [twLen, ell],
    by norm_num [twLen, ell], ?_⟩
  rw [hword]
  norm_num [ell]

/-- C5 (amended): `processWordForFit` returns the word unchanged when not
forcing ellipsis and the word fits; otherwise, whenever some NONEMPTY prefix
`p` satisfies `width (p ++ "...") ≤ maxWidth`, it returns exactly the longest
such nonempty prefix followed by `"..."` — the scan runs from the full length
down to length 1, so the bare `"..."` (empty prefix) is never produced. -/
theorem claim_C5_amended (tw : Str → ℚ → ℚ) (word : Str)
    (maxWidth fontSize radius : ℚ) (force : Bool) :
    (force = false → tw word fontSize ≤ maxWidth →
      processWordForFit tw word maxWidth fontSize radius force = word)
    ∧ (∀ k, (force = true ∨ maxWidth < tw word fontSize) →
        1 ≤ k → k ≤ word.length →
        tw (word.take k ++ ell) fontSize ≤ maxWidth →
        (∀ j, k < j → j ≤ word.length → maxWidth < tw (word.take j ++ ell) fontSize) →
        processWordForFit tw word maxWidth fontSize radius force = word.take k ++ ell) := by
  constructor
  · intro hf hw
    unfold processWordForFit
    rw [if_pos ⟨hf, hw⟩]
  · intro k hbranch hk1 hk2 hfit hmax
    unfold processWordForFit
    rw [if_neg (by
      rcases hbranch with h | h
      · simp [h]
      · intro hc
        exact absurd hc.2 (not_le.mpr h))]
    simp only []
    rw [truncLoop_finds tw word maxWidth fontSize k hk1 hfit word.length hk2 hmax,
      if_neg (not_lt.mpr hfit)]

/-- C5 witness: a concrete non-forced call whose word does not fit; prefix
length 2 is the longest whose `"..."`-suffixed form fits, and the fitter
returns exactly that. -/
theorem claim_C5_witness :
    processWordForFit twLen ['a', 'b', 'c', 'd', 'e', 'f'] 5 0 10 false =
      List.take 2 ['a', 'b', 'c', 'd', 'e', 'f'] ++ ell := by
  refine (claim_C5_amended twLen ['a', 'b', 'c', 'd', 'e', 'f'] 5 0 10 false).2 2
    (Or.inr (by norm_num [twLen])) (by norm_num) (by norm_num)
    (by norm_num [twLen, ell]) ?_
  intro j hj1 hj2
  norm_num at hj2
  interval_cases j <;> norm_num [twLen, ell]

/-! ### Claim C6 about the multi-line label fitter -/

/-- Width oracle measuring ten pixels per character. -/
def tw10 : Str → ℚ → ℚ := fun s _ => 10 * (s.length : ℚ)

theorem pwf_abc :
    processWordForFit tw10 ['a', 'b', 'c'] 16 8 10 false = ['a', '.', '.'] := by
  unfold processWordForFit
  rw [if_neg (by norm_num [tw10])]
  simp only []
  rw [truncLoop_none tw10 ['a', 'b', 'c'] 16 8 (List.length ['a', 'b', 'c']) ?_]
  · rw [if_pos (by norm_num [tw10]), if_neg (by norm_num)]
    decide
  · intro k hk1 hk2
    norm_num at hk2
    interval_cases k <;> norm_num [tw10, ell]

theorem pwf_x : processWordForFit tw10 ['x'] 16 8 10 false = ['x'] := by
  unfold processWordForFit
  rw [if_pos ⟨rfl, by norm_num [tw10]⟩]

theorem pwf_x_forced : processWordForFit tw10 ['x'] 16 8 10 true = ['x'] := by
  unfold processWordForFit
  rw [if_neg (by simp)]
  simp only []
  rw [truncLoop_none tw10 ['x'] 16 8 (List.length ['x']) ?_]
  · rw [if_neg (by norm_num [tw10])]
  · intro k hk1 hk2
    norm_num at hk2
    interval_cases k
    norm_num [tw10, ell]

/-- C6 counterexample. The claim says the greedy placement stops adding words
once a word is truncated. With the ten-pixels-per-character oracle and name
`"abc x y"` at radius 10 (maxWidth 16, fontSize 8), the first word `"abc"` is
truncated to the degraded form `"a.."`; that form does not contain `"..."`,
so the loop keeps going and places the next word `"x"` as a second line — the
placement did not stop at the truncated word. -/
theorem claim_C6_cex :
    addTextLabelLines tw10 ['a', 'b', 'c', ' ', 'x', ' ', 'y'] 10 = [['a', '.', '.'], ['x']]
    ∧ processWordForFit tw10 ['a', 'b', 'c'] 16 8 10 false = ['a', '.', '.']
    ∧ ['a', '.', '.'] ≠ ['a', 'b', 'c']
    ∧ containsSub ell ['a', '.', '.'] = false := by
  have hsplit : splitChar ['a', 'b', 'c', ' ', 'x', ' ', 'y'] =
      [['a', 'b', 'c'], ['x'], ['y']] := by decide
  refine ⟨?_, pwf_abc, by decide, by decide⟩
  norm_num [addTextLabelLines, hsplit, buildLines, pwf_abc, pwf_x, pwf_x_forced, tw10,
    show containsSub ['.', '.', '.'] ['a', '.', '.'] = false from by decide,
    show containsSub ['.', '.', '.'] ['x'] = false from by decide,
    show ¬ (['a', '.', '.'] = ([] : List Char)) from by decide, ell]

theorem buildLines_length (tw : Str → ℚ → ℚ) (maxWidth fontSize radius : ℚ) :
    ∀ (ws : List Str) (lines : List Str), lines.length ≤ 2 →
      (buildLines tw maxWidth fontSize radius ws lines).length ≤ 2 := by
  intro ws
  induction ws with
  | nil => intro lines h; simpa [buildLines] using h
  | cons w ws ih =>
    intro lines h
    rw [buildLines]
    by_cases h2 : 2 ≤ lines.length
    · rw [if_pos h2]; exact h
    · rw [if_neg h2]
      simp only []
      by_cases h3 : containsSub ell (processWordForFit tw w maxWidth fontSize radius false) = true
          ∨ processWordForFit tw w maxWidth fontSize radius false = []
      · rw [if_pos h3]
        by_cases h4 : processWordForFit tw w maxWidth fontSize radius false = []
        · rw [if_pos h4]; exact h
        · rw [if_neg h4]
          simp only [List.length_append, List.length_cons, List.length_nil]
          omega
      · rw [if_neg h3]
        exact ih _ (by
          simp only [List.length_append, List.length_cons, List.length_nil]
          omega)

/-- C6 (amended): the fitter always produces at most 2 lines; the greedy
placement stops early exactly when a word's fitted form contains `"..."` or is
empty — a word degraded to the first-character-plus-`".."` fallback does NOT
stop placement; and when words remain unplaced after 2 lines and the last line
does not already contain `"..."`, the last line gets `"..."` appended if that
fits within maxWidth, otherwise it is re-truncated with forced ellipsis. -/
theorem claim_C6_amended :
    (∀ (tw : Str → ℚ → ℚ) (name : Str) (r : ℚ),
      (addTextLabelLines tw name r).length ≤ 2)
    ∧ (∀ (tw : Str → ℚ → ℚ) (maxWidth fontSize radius : ℚ) (w : Str) (ws : List Str)
        (lines : List Str), lines.length < 2 →
        containsSub ell (processWordForFit tw w maxWidth fontSize radius false) = false →
        processWordForFit tw w maxWidth fontSize radius false ≠ [] →
        buildLines tw maxWidth fontSize radius (w :: ws) lines =
          buildLines tw maxWidth fontSize radius ws
            (lines ++ [processWordForFit tw w maxWidth fontSize radius false]))
    ∧ (∀ (tw : Str → ℚ → ℚ) (maxWidth fontSize radius : ℚ) (w : Str) (ws : List Str)
        (lines : List Str), lines.length < 2 →
        (containsSub ell (processWordForFit tw w maxWidth fontSize radius false) = true ∨
          processWordForFit tw w maxWidth fontSize radius false = []) →
        buildLines tw maxWidth fontSize radius (w :: ws) lines =
          (if processWordForFit tw w maxWidth fontSize radius false = [] then lines
            else lines ++ [processWordForFit tw w maxWidth fontSize radius false]))
    ∧ (∀ (tw : Str → ℚ → ℚ) (name : Str) (r : ℚ) (L : List Str),
        L = buildLines tw (r * (8 / 5)) (max 8 (r / 4)) r (splitChar name) [] →
        (splitChar name).length ≠ 1 →
        (splitChar name).length > L.length →
        L.length = 2 →
        containsSub ell (L.getLastD []) = false →
        addTextLabelLines tw name r =
          (if tw (L.getLastD [] ++ ell) (max 8 (r / 4)) ≤ r * (8 / 5) then
            L.dropLast ++ [L.getLastD [] ++ ell]
          else
            L.dropLast ++
              [processWordForFit tw (L.getLastD []) (r * (8 / 5)) (max 8 (r / 4)) r true])) := by
  refine ⟨?_, ?_, ?_, ?_⟩
  · intro tw name r
    unfold addTextLabelLines
    by_cases h1 : (splitChar name).length = 1
    · rw [if_pos h1]; simp
    · rw [if_neg h1]
      simp only []
      have hb := buildLines_length tw (r * (8 / 5)) (max 8 (r / 4)) r (splitChar name) []
        (by simp)
      split
      · rename_i hA
        split
        · simp only [List.length_append, List.length_dropLast, List.length_cons,
            List.length_nil, hA.2.1]
          omega
        · simp only [List.length_append, List.length_dropLast, List.length_cons,
            List.length_nil, hA.2.1]
          omega
      · exact hb
  · intro tw maxWidth fontSize radius w ws lines hlen hc hne
    rw [buildLines, if_neg (by omega)]
    simp only []
    rw [if_neg (by simp [hc, hne])]
  · intro tw maxWidth fontSize radius w ws lines hlen hstop
    rw [buildLines, if_neg (by omega)]
    simp only []
    rw [if_pos hstop]
  · intro tw name r L hL h1 h2 h3 h4
    unfold addTextLabelLines
    rw [if_neg h1]
    simp only []
    rw [← hL, if_pos ⟨h2, h3, by rw [h4]; simp⟩]

/-- C6 witness: the two-line bound instantiated on a concrete name. -/
theorem claim_C6_witness :
    (addTextLabelLines tw10 ['a', 'b', 'c', ' ', 'x', ' ', 'y'] 10).length ≤ 2 :=
  claim_C6_amended.1 tw10 ['a', 'b', 'c', ' ', 'x', ' ', 'y'] 10

/-! ### Claim C9 about the stroke-width formulas -/

/-- C9 counterexample. The claim says the stroke width is
`max(0.5, size * 0.001)` with `size` the smaller of the container's width and
height, and that both the initial render path and the resize path yield the
same value. For a 1000 x 1000 container a leaf circle gets stroke width
`max(0.5, 800 * 0.001) = 0.8` on the render path (because `drawNodes` receives
the pack dimensions, whose smaller side is `0.8 * 1000`), but
`max(0.5, 1000 * 0.001) = 1` on the resize path. -/
theorem claim_C9_cex :
    strokeWidthRenderPath 1000 1000 false ≠ max (1 / 2) (min (1000 : ℚ) 1000 * (1 / 1000))
    ∧ strokeWidthRenderPath 1000 1000 false ≠ strokeWidthResizePath 1000 1000 false := by
  constructor
  · norm_num [strokeWidthRenderPath, strokeWidthDrawNodes]
  · norm_num [strokeWidthRenderPath, strokeWidthDrawNodes, strokeWidthResizePath]

/-- C9 (amended): the resize path computes
`max(0.5, min(width, height) * 0.001)` (doubled for region circles) from the
container dimensions, while the render path hands `drawNodes` the pack
dimensions, so its base is `max(0.5, min(width, height) * 0.8 * 0.001)`; the
two paths agree exactly when the container's smaller dimension is at most 500
(both clamp to 0.5). -/
theorem claim_C9_amended (w h : ℚ) (b : Bool) :
    strokeWidthResizePath w h b =
      (if b then 2 else 1) * max (1 / 2) (min w h * (1 / 1000))
    ∧ (0 ≤ min w h →
        strokeWidthRenderPath w h b =
          (if b then 2 else 1) * max (1 / 2) (min w h * (4 / 5) * (1 / 1000)))
    ∧ (strokeWidthRenderPath w h b = strokeWidthResizePath w h b ↔ min w h ≤ 500) := by
  have hbase : ∀ x : ℚ, (if b then 2 else 1) * x = (if b then x * 2 else x) := by
    intro x
    cases b <;> simp <;> ring
  refine ⟨?_, ?_, ?_⟩
  · rw [hbase]
    simp only [strokeWidthResizePath]
  · intro hm
    rw [hbase]
    have hmin : min (min w h * (6 / 5)) (min w h * (4 / 5)) = min w h * (4 / 5) :=
      min_eq_right (by linarith)
    simp only [strokeWidthRenderPath, strokeWidthDrawNodes, hmin]
  · have hiff : max (1 / 2) (min (min w h * (6 / 5)) (min w h * (4 / 5)) * (1 / 1000)) =
        max (1 / 2) (min w h * (1 / 1000)) ↔ min w h ≤ 500 := by
      constructor
      · intro heq
        by_contra hgt
        push_neg at hgt
        have h0 : (0 : ℚ) ≤ min w h := by linarith
        have hmin : min (min w h * (6 / 5)) (min w h * (4 / 5)) = min w h * (4 / 5) :=
          min_eq_right (by linarith)
        rw [hmin] at heq
        have hZ : max (1 / 2) (min w h * (1 / 1000)) = min w h * (1 / 1000) :=
          max_eq_right (by linarith)
        rw [hZ] at heq
        have hlt : max (1 / 2) (min w h * (4 / 5) * (1 / 1000)) < min w h * (1 / 1000) := by
          apply max_lt <;> linarith
        exact absurd heq (ne_of_lt hlt)
      · intro hle
        have hA : min (min w h * (6 / 5)) (min w h * (4 / 5)) * (1 / 1000) ≤ 1 / 2 := by
          have h1 : min (min w h * (6 / 5)) (min w h * (4 / 5)) ≤ min w h * (4 / 5) :=
            min_le_right _ _
          nlinarith [h1]
        have hB : min w h * (1 / 1000) ≤ 1 / 2 := by linarith
        rw [max_eq_left hA, max_eq_left hB]
    simp only [strokeWidthRenderPath, strokeWidthDrawNodes, strokeWidthResizePath]
    cases b
    · simpa using hiff
    · simp only [if_true]
      constructor
      · intro heq
        exact hiff.mp (by linarith)
      · intro hle
        rw [hiff.mpr hle]

/-- C9 witness: the amended equality instantiated at a small container where
both paths agree (smaller dimension 400 ≤ 500, both clamp to 0.5). -/
theorem claim_C9_witness :
    strokeWidthRenderPath 400 600 false = strokeWidthResizePath 400 600 false :=
  (claim_C9_amended 400 600 false).2.2.mpr (by norm_num)

/-! ### Map lemmas -/

theorem mapGet_set_self {α : Type} (m : List (Str × α)) (k : Str) (v : α) :
    mapGet (mapSet m k v) k = some v := by
  induction m with
  | nil => simp [mapSet, mapGet]
  | cons kv rest ih =>
    obtain ⟨k', v'⟩ := kv
    by_cases h : k' = k
    · subst h; simp [mapSet, mapGet]
    · simp [mapSet, mapGet, h, ih]

theorem mapGet_set_other {α : Type} (m : List (Str × α)) (k : Str) (v : α) (n : Str)
    (h : n ≠ k) : mapGet (mapSet m k v) n = mapGet m n := by
  induction m with
  | nil =>
    simp only [mapSet, mapGet]
    rw [if_neg (fun hc => h hc.symm)]
  | cons kv rest ih =>
    obtain ⟨k', v'⟩ := kv
    by_cases h2 : k' = k
    · subst h2
      simp only [mapSet, if_pos rfl, mapGet]
      rw [if_neg (fun hc => h hc.symm), if_neg (fun hc => h hc.symm)]
    · simp only [mapSet, if_neg h2, mapGet]
      by_cases h3 : k' = n
      · rw [if_pos h3, if_pos h3]
      · rw [if_neg h3, if_neg h3, ih]

theorem mapGet_set_isSome {α : Type} (m : List (Str × α)) (k : Str) (v : α) (n : Str)
    (h : (mapGet m n).isSome = true) : (mapGet (mapSet m k v) n).isSome = true := by
  by_cases h2 : n = k
  · subst h2; rw [mapGet_set_self]; rfl
  · rw [mapGet_set_other m k v n h2]; exact h

/-! ### Domain invariants of the optimizer maps -/

theorem seedPositions_preserves (packWidth packHeight : ℚ) (n : Str) :
    ∀ (rs : List Region) (m : PosMap), (mapGet m n).isSome = true →
      (mapGet (seedPositions packWidth packHeight rs m) n).isSome = true := by
  intro rs
  induction rs with
  | nil => intro m h; exact h
  | cons r rest ih =>
    intro m h
    exact ih _ (mapGet_set_isSome _ _ _ _ h)

theorem seedPositions_isSome (packWidth packHeight : ℚ) :
    ∀ (rs : List Region) (m : PosMap) (reg : Region), reg ∈ rs →
      (mapGet (seedPositions packWidth packHeight rs m) reg.name).isSome = true := by
  intro rs
  induction rs with
  | nil => intro m reg h; cases h
  | cons r rest ih =>
    intro m reg h
    rcases List.mem_cons.mp h with heq | hmem
    · subst heq
      rw [seedPositions]
      exact seedPositions_preserves packWidth packHeight reg.name rest _
        (by rw [mapGet_set_self]; rfl)
    · exact ih _ reg hmem

theorem initForces_preserves (n : Str) :
    ∀ (rs : List Region) (m : FMap), (mapGet m n).isSome = true →
      (mapGet (initForces rs m) n).isSome = true := by
  intro rs
  induction rs with
  | nil => intro m h; exact h
  | cons r rest ih =>
    intro m h
    exact ih _ (mapGet_set_isSome _ _ _ _ h)

theorem initForces_isSome :
    ∀ (rs : List Region) (m : FMap) (reg : Region), reg ∈ rs →
      (mapGet (initForces rs m) reg.name).isSome = true := by
  intro rs
  induction rs with
  | nil => intro m reg h; cases h
  | cons r rest ih =>
    intro m reg h
    rcases List.mem_cons.mp h with heq | hmem
    · subst heq
      rw [initForces]
      exact initForces_preserves reg.name rest _ (by rw [mapGet_set_self]; rfl)
    · exact ih _ reg hmem

theorem fAdd_preserves (m : FMap) (k : Str) (d : Pt) (n : Str)
    (h : (mapGet m n).isSome = true) : (mapGet (fAdd m k d) n).isSome = true := by
  unfold fAdd
  cases hg : mapGet m k with
  | none => exact h
  | some v => exact mapGet_set_isSome _ _ _ _ h

theorem pairForce_preserves (sq : ℚ → ℚ) (pos : PosMap) (f : FMap)
    (pr : Region × Region) (n : Str) (h : (mapGet f n).isSome = true) :
    (mapGet (pairForce sq pos f pr) n).isSome = true := by
  unfold pairForce
  cases h1 : mapGet pos pr.1.name with
  | none => exact h
  | some p1 =>
    cases h2 : mapGet pos pr.2.name with
    | none => exact h
    | some p2 =>
      simp only []
      split
      · exact fAdd_preserves _ _ _ _ (fAdd_preserves _ _ _ _ h)
      · exact h

theorem forcePairs_preserves (sq : ℚ → ℚ) (pos : PosMap) (n : Str) :
    ∀ (prs : List (Region × Region)) (f : FMap), (mapGet f n).isSome = true →
      (mapGet (forcePairs sq pos prs f) n).isSome = true := by
  intro prs
  induction prs with
  | nil => intro f h; exact h
  | cons pr rest ih =>
    intro f h
    exact ih _ (pairForce_preserves _ _ _ _ _ h)

theorem computeForces_isSome (sq : ℚ → ℚ) (regions : List Region) (pos : PosMap)
    (reg : Region) (h : reg ∈ regions) :
    (mapGet (computeForces sq regions pos) reg.name).isSome = true :=
  forcePairs_preserves _ _ _ _ _ (initForces_isSome _ _ _ h)

/-! ### The clamping shape of applied positions -/

theorem applyForces_untouched (packWidth packHeight : ℚ) (forces : FMap) (n : Str) :
    ∀ (rs : List Region) (pos : PosMap) (tm : ℚ), n ∉ rs.map Region.name →
      mapGet (applyForces packWidth packHeight forces rs pos tm).1 n = mapGet pos n := by
  intro rs
  induction rs with
  | nil => intro pos tm _; rfl
  | cons r rest ih =>
    intro pos tm hn
    have hn1 : n ≠ r.name := by
      intro hc; exact hn (by simp [hc])
    have hn2 : n ∉ rest.map Region.name := by
      intro hc; exact hn (by simp [hc])
    rw [applyForces]
    cases h1 : mapGet pos r.name with
    | none => exact ih pos tm hn2
    | some cur =>
      cases h2 : mapGet forces r.name with
      | none => exact ih pos tm hn2
      | some force =>
        simp only []
        rw [ih _ _ hn2, mapGet_set_other _ _ _ _ hn1]

theorem applyForces_isSome (packWidth packHeight : ℚ) (forces : FMap) (n : Str) :
    ∀ (rs : List Region) (pos : PosMap) (tm : ℚ), (mapGet pos n).isSome = true →
      (mapGet (applyForces packWidth packHeight forces rs pos tm).1 n).isSome = true := by
  intro rs
  induction rs with
  | nil => intro pos tm h; exact h
  | cons r rest ih =>
    intro pos tm h
    rw [applyForces]
    cases h1 : mapGet pos r.name with
    | none => exact ih pos tm h
    | some cur =>
      cases h2 : mapGet forces r.name with
      | none => exact ih pos tm h
      | some force =>
        simp only []
        exact ih _ _ (mapGet_set_isSome _ _ _ _ h)

theorem applyForces_clamped (packWidth packHeight : ℚ) (forces : FMap) :
    ∀ (rs : List Region) (pos : PosMap) (tm : ℚ) (reg : Region), reg ∈ rs →
      (rs.map Region.name).Nodup →
      (∀ r' ∈ rs, (mapGet pos r'.name).isSome = true) →
      (∀ r' ∈ rs, (mapGet forces r'.name).isSome = true) →
      ∃ q, mapGet (applyForces packWidth packHeight forces rs pos tm).1 reg.name =
        some (clampPt packWidth packHeight reg q) := by
  intro rs
  induction rs with
  | nil => intro pos tm reg h; cases h
  | cons r rest ih =>
    intro pos tm reg hmem hnd hpos hforce
    have hr1 : (mapGet pos r.name).isSome = true := hpos r (List.mem_cons_self r rest)
    have hr2 : (mapGet forces r.name).isSome = true := hforce r (List.mem_cons_self r rest)
    obtain ⟨cur, hcur⟩ := Option.isSome_iff_exists.mp hr1
    obtain ⟨force, hf⟩ := Option.isSome_iff_exists.mp hr2
    have hndc : r.name ∉ rest.map Region.name ∧ (rest.map Region.name).Nodup := by
      rw [List.map_cons] at hnd
      exact List.nodup_cons.mp hnd
    rw [applyForces, hcur, hf]
    simp only []
    rcases List.mem_cons.mp hmem with heq | hmem2
    · subst heq
      rw [applyForces_untouched _ _ _ _ _ _ _ hndc.1, mapGet_set_self]
      exact ⟨⟨cur.x + force.x, cur.y + force.y⟩, rfl⟩
    · refine ih _ _ reg hmem2 hndc.2
        (fun r' hr' => ?_) (fun r' hr' => hforce r' (List.mem_cons_of_mem _ hr'))
      exact mapGet_set_isSome _ _ _ _ (hpos r' (List.mem_cons_of_mem _ hr'))

/-! ### Loop lemmas -/

theorem optimLoop_break {sq : ℚ → ℚ} {regions : List Region}
    {packWidth packHeight : ℚ} {fuel : Nat} {pos pos2 : PosMap} {tm : ℚ}
    (hf : fuel ≠ 0)
    (hs : applyForces packWidth packHeight (computeForces sq regions pos) regions pos 0 =
      (pos2, tm))
    (h2 : tm < 1) :
    optimLoop sq regions packWidth packHeight fuel pos = ⟨pos2, true, tm⟩ := by
  rw [optimLoop, if_neg hf, hs]
  exact if_pos h2

theorem optimLoop_cont {sq : ℚ → ℚ} {regions : List Region}
    {packWidth packHeight : ℚ} {fuel : Nat} {pos pos2 : PosMap} {tm : ℚ}
    (hf : fuel ≠ 0)
    (hs : applyForces packWidth packHeight (computeForces sq regions pos) regions pos 0 =
      (pos2, tm))
    (h2 : ¬ tm < 1) :
    optimLoop sq regions packWidth packHeight fuel pos =
      optimLoop sq regions packWidth packHeight (fuel - 1) pos2 := by
  rw [optimLoop, if_neg hf, hs]
  exact if_neg h2

theorem optimLoop_isSome (sq : ℚ → ℚ) (regions : List Region)
    (packWidth packHeight : ℚ) (n : Str) :
    ∀ (fuel : Nat) (pos : PosMap), (mapGet pos n).isSome = true →
      (mapGet (optimLoop sq regions packWidth packHeight fuel pos).positions n).isSome =
        true := by
  intro fuel
  induction fuel using Nat.strong_induction_on with
  | _ fuel ih =>
    intro pos h
    by_cases hf : fuel = 0
    · rw [optimLoop, if_pos hf]; exact h
    · rcases hs : applyForces packWidth packHeight (computeForces sq regions pos)
          regions pos 0 with ⟨pos2, tm⟩
      have hsome : (mapGet pos2 n).isSome = true := by
        have := applyForces_isSome packWidth packHeight (computeForces sq regions pos) n
          regions pos 0 h
        rw [hs] at this
        exact this
      by_cases h2 : tm < 1
      · rw [optimLoop_break hf hs h2]; exact hsome
      · rw [optimLoop_cont hf hs h2]
        exact ih (fuel - 1) (by omega) pos2 hsome

theorem optimLoop_clamped (sq : ℚ → ℚ) (regions : List Region)
    (packWidth packHeight : ℚ) (reg : Region) (hmem : reg ∈ regions)
    (hnd : (regions.map Region.name).Nodup) :
    ∀ (fuel : Nat) (pos : PosMap), fuel ≠ 0 →
      (∀ r' ∈ regions, (mapGet pos r'.name).isSome = true) →
      ∃ q, mapGet (optimLoop sq regions packWidth packHeight fuel pos).positions reg.name =
        some (clampPt packWidth packHeight reg q) := by
  intro fuel
  induction fuel using Nat.strong_induction_on with
  | _ fuel ih =>
    intro pos hf hinv
    rcases hs : applyForces packWidth packHeight (computeForces sq regions pos)
        regions pos 0 with ⟨pos2, tm⟩
    have hclamp : ∃ q, mapGet pos2 reg.name =
        some (clampPt packWidth packHeight reg q) := by
      have := applyForces_clamped packWidth packHeight (computeForces sq regions pos)
        regions pos 0 reg hmem hnd hinv
        (fun r' hr' => computeForces_isSome sq regions pos r' hr')
      rw [hs] at this
      exact this
    have hinv2 : ∀ r' ∈ regions, (mapGet pos2 r'.name).isSome = true := by
      intro r' hr'
      have := applyForces_isSome packWidth packHeight (computeForces sq regions pos)
        r'.name regions pos 0 (hinv r' hr')
      rw [hs] at this
      exact this
    by_cases h2 : tm < 1
    · rw [optimLoop_break hf hs h2]; exact hclamp
    · rw [optimLoop_cont hf hs h2]
      by_cases h3 : fuel - 1 = 0
      · rw [h3, optimLoop, if_pos rfl]; exact hclamp
      · exact ih (fuel - 1) (by omega) pos2 h3 hinv2

theorem optimLoop_converged (sq : ℚ → ℚ) (regions : List Region)
    (packWidth packHeight : ℚ) :
    ∀ (fuel : Nat) (pos : PosMap),
      (optimLoop sq regions packWidth packHeight fuel pos).convergedEarly = true →
      (optimLoop sq regions packWidth packHeight fuel pos).lastMovement < 1 := by
  intro fuel
  induction fuel using Nat.strong_induction_on with
  | _ fuel ih =>
    intro pos hconv
    by_cases hf : fuel = 0
    · rw [optimLoop, if_pos hf] at hconv
      cases hconv
    · rcases hs : applyForces packWidth packHeight (computeForces sq regions pos)
          regions pos 0 with ⟨pos2, tm⟩
      by_cases h2 : tm < 1
      · rw [optimLoop_break hf hs h2]
        exact h2
      · rw [optimLoop_cont hf hs h2] at hconv ⊢
        exact ih (fuel - 1) (by omega) pos2 hconv

/-! ### Concrete optimizer runs (shared evaluation lemmas) -/

theorem ratSqrt_25 : ratSqrt 25 = 5 := by
  norm_num [ratSqrt, show Int.toNat 25 = 25 from by decide,
    show natSqrtL 25 = 5 from by decide]

theorem ratSqrt_0 : ratSqrt 0 = 0 := by
  norm_num [ratSqrt, show natSqrtL 0 = 0 from by decide]

/-- One oversized region (`radius 5`) assigned to the top quadrant of a
16 x 12 pack: the quadrant's inset interval is empty, the clamp pins the
circle at `(30, 30)` and the loop converges in its second iteration. -/
theorem evalOptimOne :
    calculateOptimalPositions ratSqrt [⟨strNorthernEurope, 5, Quadrant.top⟩] 16 12 =
      ⟨[(strNorthernEurope, ⟨30, 30⟩)], true, 0⟩ := by
  have hseed : seedPositions 16 12 [⟨strNorthernEurope, 5, Quadrant.top⟩] [] =
      [(strNorthernEurope, ⟨8, 3⟩)] := by
    norm_num [seedPositions, mapSet, quadrantBounds]
  have hforce : ∀ pos : PosMap,
      computeForces ratSqrt [⟨strNorthernEurope, 5, Quadrant.top⟩] pos =
        [(strNorthernEurope, ⟨0, 0⟩)] := by
    intro pos
    norm_num [computeForces, forcePairs, allPairs, initForces, mapSet]
  have h1 : applyForces 16 12
      (computeForces ratSqrt [⟨strNorthernEurope, 5, Quadrant.top⟩]
        [(strNorthernEurope, ⟨8, 3⟩)])
      [⟨strNorthernEurope, 5, Quadrant.top⟩] [(strNorthernEurope, ⟨8, 3⟩)] 0 =
      ([(strNorthernEurope, ⟨30, 30⟩)], 49) := by
    rw [hforce]
    norm_num [applyForces, mapGet, mapSet, clampPt, quadrantBounds]
  have h2 : applyForces 16 12
      (computeForces ratSqrt [⟨strNorthernEurope, 5, Quadrant.top⟩]
        [(strNorthernEurope, ⟨30, 30⟩)])
      [⟨strNorthernEurope, 5, Quadrant.top⟩] [(strNorthernEurope, ⟨30, 30⟩)] 0 =
      ([(strNorthernEurope, ⟨30, 30⟩)], 0) := by
    rw [hforce]
    norm_num [applyForces, mapGet, mapSet, clampPt, quadrantBounds]
  rw [calculateOptimalPositions, hseed,
    optimLoop_cont (by norm_num) h1 (by norm_num),
    optimLoop_break (by norm_num) h2 (by norm_num)]

/-- Two pinned oversized regions (`radius 5` each, top and left quadrants of a
16 x 12 pack): both are clamped to `(30, 30)`, the loop converges in its
second iteration with the two centres coincident. -/
theorem evalOptimTwo :
    calculateOptimalPositions ratSqrt
      [⟨strNorthernEurope, 5, Quadrant.top⟩, ⟨strWesternEurope, 5, Quadrant.left⟩] 16 12 =
      ⟨[(strNorthernEurope, ⟨30, 30⟩), (strWesternEurope, ⟨30, 30⟩)], true, 0⟩ := by
  have hne : ¬ (strNorthernEurope = strWesternEurope) := by decide
  have hne' : ¬ (strWesternEurope = strNorthernEurope) := by decide
  have hseed : seedPositions 16 12
      [⟨strNorthernEurope, 5, Quadrant.top⟩, ⟨strWesternEurope, 5, Quadrant.left⟩] [] =
      [(strNorthernEurope, ⟨8, 3⟩), (strWesternEurope, ⟨4, 6⟩)] := by
    norm_num [seedPositions, mapSet, quadrantBounds, hne, hne']
  have hforce1 : computeForces ratSqrt
      [⟨strNorthernEurope, 5, Quadrant.top⟩, ⟨strWesternEurope, 5, Quadrant.left⟩]
      [(strNorthernEurope, ⟨8, 3⟩), (strWesternEurope, ⟨4, 6⟩)] =
      [(strNorthernEurope, ⟨28, -21⟩), (strWesternEurope, ⟨-28, 21⟩)] := by
    norm_num [computeForces, forcePairs, allPairs, initForces, pairForce, fAdd,
      mapGet, mapSet, hne, hne', ratSqrt_25]
  have h1 : applyForces 16 12
      (computeForces ratSqrt
        [⟨strNorthernEurope, 5, Quadrant.top⟩, ⟨strWesternEurope, 5, Quadrant.left⟩]
        [(strNorthernEurope, ⟨8, 3⟩), (strWesternEurope, ⟨4, 6⟩)])
      [⟨strNorthernEurope, 5, Quadrant.top⟩, ⟨strWesternEurope, 5, Quadrant.left⟩]
      [(strNorthernEurope, ⟨8, 3⟩), (strWesternEurope, ⟨4, 6⟩)] 0 =
      ([(strNorthernEurope, ⟨30, 30⟩), (strWesternEurope, ⟨30, 30⟩)], 99) := by
    rw [hforce1]
    norm_num [applyForces, mapGet, mapSet, clampPt, quadrantBounds, hne, hne']
  have hforce2 : computeForces ratSqrt
      [⟨strNorthernEurope, 5, Quadrant.top⟩, ⟨strWesternEurope, 5, Quadrant.left⟩]
      [(strNorthernEurope, ⟨30, 30⟩), (strWesternEurope, ⟨30, 30⟩)] =
      [(strNorthernEurope, ⟨0, 0⟩), (strWesternEurope, ⟨0, 0⟩)] := by
    norm_num [computeForces, forcePairs, allPairs, initForces, pairForce, fAdd,
      mapGet, mapSet, hne, hne', ratSqrt_0]
  have h2 : applyForces 16 12
      (computeForces ratSqrt
        [⟨strNorthernEurope, 5, Quadrant.top⟩, ⟨strWesternEurope, 5, Quadrant.left⟩]
        [(strNorthernEurope, ⟨30, 30⟩), (strWesternEurope, ⟨30, 30⟩)])
      [⟨strNorthernEurope, 5, Quadrant.top⟩, ⟨strWesternEurope, 5, Quadrant.left⟩]
      [(strNorthernEurope, ⟨30, 30⟩), (strWesternEurope, ⟨30, 30⟩)] 0 =
      ([(strNorthernEurope, ⟨30, 30⟩), (strWesternEurope, ⟨30, 30⟩)], 0) := by
    rw [hforce2]
    norm_num [applyForces, mapGet, mapSet, clampPt, quadrantBounds, hne, hne']
  rw [calculateOptimalPositions, hseed,
    optimLoop_cont (by norm_num) h1 (by norm_num),
    optimLoop_break (by norm_num) h2 (by norm_num)]

/-! ### Claim C2 about the quadrant clamp -/

theorem clampPt_bounds (packWidth packHeight : ℚ) (reg : Region) (p : Pt)
    (hx : (quadrantBounds packWidth packHeight reg.quadrant).minX + (reg.radius + 5) ≤
      (quadrantBounds packWidth packHeight reg.quadrant).maxX - (reg.radius + 5))
    (hy : (quadrantBounds packWidth packHeight reg.quadrant).minY + (reg.radius + 5) ≤
      (quadrantBounds packWidth packHeight reg.quadrant).maxY - (reg.radius + 5)) :
    (quadrantBounds packWidth packHeight reg.quadrant).minX + reg.radius + 5 ≤
        (clampPt packWidth packHeight reg p).x
    ∧ (clampPt packWidth packHeight reg p).x ≤
        (quadrantBounds packWidth packHeight reg.quadrant).maxX - reg.radius - 5
    ∧ (quadrantBounds packWidth packHeight reg.quadrant).minY + reg.radius + 5 ≤
        (clampPt packWidth packHeight reg p).y
    ∧ (clampPt packWidth packHeight reg p).y ≤
        (quadrantBounds packWidth packHeight reg.quadrant).maxY - reg.radius - 5 := by
  unfold clampPt
  simp only []
  refine ⟨?_, ?_, ?_, ?_⟩
  · have := le_max_left
      ((quadrantBounds packWidth packHeight reg.quadrant).minX + (reg.radius + 5))
      (min ((quadrantBounds packWidth packHeight reg.quadrant).maxX - (reg.radius + 5)) p.x)
    linarith
  · have h1 := min_le_left
      ((quadrantBounds packWidth packHeight reg.quadrant).maxX - (reg.radius + 5)) p.x
    have h2 := max_le hx h1
    linarith
  · have := le_max_left
      ((quadrantBounds packWidth packHeight reg.quadrant).minY + (reg.radius + 5))
      (min ((quadrantBounds packWidth packHeight reg.quadrant).maxY - (reg.radius + 5)) p.y)
    linarith
  · have h1 := min_le_left
      ((quadrantBounds packWidth packHeight reg.quadrant).maxY - (reg.radius + 5)) p.y
    have h2 := max_le hy h1
    linarith

/-- C2 counterexample. The claim asserts the inset containment for all
container sizes and all radii. With a single region of radius 5 assigned to
the top quadrant of a 16 x 12 pack, the quadrant's inset interval is empty
(`maxY - radius - padding = -24`), the clamp's `max` wins, and the returned
centre `(30, 30)` violates `y ≤ maxY - radius - padding`. -/
theorem claim_C2_cex :
    mapGet (calculateOptimalPositions ratSqrt
        [⟨strNorthernEurope, 5, Quadrant.top⟩] 16 12).positions strNorthernEurope =
      some ⟨30, 30⟩
    ∧ ¬ ((30 : ℚ) ≤ (quadrantBounds 16 12 Quadrant.top).maxY - 5 - 5) := by
  rw [evalOptimOne]
  constructor
  · simp [mapGet]
  · norm_num [quadrantBounds]

/-- C2 (amended): for every region with an assigned quadrant whose inset
rectangle is nonempty on both axes (that is, the quadrant can accommodate the
circle: `minX + radius + padding ≤ maxX - radius - padding` and likewise for
`y`, padding being 5), the position returned by `calculateOptimalPositions`
lies within the quadrant's bound rectangle inset by `radius + padding`.
Region names are assumed pairwise distinct, as they are for the four fixed
regions. Without the nonemptiness condition the clamp's lower bound wins and
the upper inequalities can fail (see the counterexample). -/
theorem claim_C2_amended (sq : ℚ → ℚ) (regions : List Region)
    (packWidth packHeight : ℚ)
    (hnd : (regions.map Region.name).Nodup) (reg : Region) (hmem : reg ∈ regions)
    (hx : (quadrantBounds packWidth packHeight reg.quadrant).minX + (reg.radius + 5) ≤
      (quadrantBounds packWidth packHeight reg.quadrant).maxX - (reg.radius + 5))
    (hy : (quadrantBounds packWidth packHeight reg.quadrant).minY + (reg.radius + 5) ≤
      (quadrantBounds packWidth packHeight reg.quadrant).maxY - (reg.radius + 5)) :
    ∃ p, mapGet (calculateOptimalPositions sq regions packWidth packHeight).positions
        reg.name = some p
      ∧ (quadrantBounds packWidth packHeight reg.quadrant).minX + reg.radius + 5 ≤ p.x
      ∧ p.x ≤ (quadrantBounds packWidth packHeight reg.quadrant).maxX - reg.radius - 5
      ∧ (quadrantBounds packWidth packHeight reg.quadrant).minY + reg.radius + 5 ≤ p.y
      ∧ p.y ≤ (quadrantBounds packWidth packHeight reg.quadrant).maxY - reg.radius - 5 := by
  obtain ⟨q, hq⟩ := optimLoop_clamped sq regions packWidth packHeight reg hmem hnd 50
    (seedPositions packWidth packHeight regions []) (by norm_num)
    (fun r' hr' => seedPositions_isSome packWidth packHeight regions [] r' hr')
  refine ⟨clampPt packWidth packHeight reg q, ?_, ?_, ?_, ?_, ?_⟩
  · rw [calculateOptimalPositions]
    exact hq
  · exact (clampPt_bounds packWidth packHeight reg q hx hy).1
  · exact (clampPt_bounds packWidth packHeight reg q hx hy).2.1
  · exact (clampPt_bounds packWidth packHeight reg q hx hy).2.2.1
  · exact (clampPt_bounds packWidth packHeight reg q hx hy).2.2.2

/-- C2 witness: a radius-50 region in the top quadrant of an 800 x 600 pack
(nonempty inset), instantiating the amended containment. -/
theorem claim_C2_witness :
    ∃ p, mapGet (calculateOptimalPositions ratSqrt
        [⟨strNorthernEurope, 50, Quadrant.top⟩] 800 600).positions strNorthernEurope =
      some p
      ∧ (quadrantBounds 800 600 Quadrant.top).minX + 50 + 5 ≤ p.x
      ∧ p.x ≤ (quadrantBounds 800 600 Quadrant.top).maxX - 50 - 5
      ∧ (quadrantBounds 800 600 Quadrant.top).minY + 50 + 5 ≤ p.y
      ∧ p.y ≤ (quadrantBounds 800 600 Quadrant.top).maxY - 50 - 5 :=
  claim_C2_amended ratSqrt [⟨strNorthernEurope, 50, Quadrant.top⟩] 800 600
    (by simp) ⟨strNorthernEurope, 50, Quadrant.top⟩ (by simp)
    (by norm_num [quadrantBounds]) (by norm_num [quadrantBounds])

/-! ### Claim C3 about separation on early exit -/

/-- C3 counterexample. The claim asserts that whenever the loop exits before
the 50-iteration cap, every pair of region circles is separated by at least
the sum of radii plus the buffer distance 30. With two radius-5 regions whose
quadrants cannot accommodate them (16 x 12 pack), both are pinned by the clamp
to the same point `(30, 30)`; the second iteration moves nothing, the loop
breaks early, and the pair distance is 0, far below the required 40. -/
theorem claim_C3_cex :
    (calculateOptimalPositions ratSqrt
      [⟨strNorthernEurope, 5, Quadrant.top⟩, ⟨strWesternEurope, 5, Quadrant.left⟩]
      16 12).convergedEarly = true
    ∧ mapGet (calculateOptimalPositions ratSqrt
        [⟨strNorthernEurope, 5, Quadrant.top⟩, ⟨strWesternEurope, 5, Quadrant.left⟩]
        16 12).positions strNorthernEurope = some ⟨30, 30⟩
    ∧ mapGet (calculateOptimalPositions ratSqrt
        [⟨strNorthernEurope, 5, Quadrant.top⟩, ⟨strWesternEurope, 5, Quadrant.left⟩]
        16 12).positions strWesternEurope = some ⟨30, 30⟩
    ∧ ((30 : ℚ) - 30) * (30 - 30) + ((30 : ℚ) - 30) * (30 - 30) <
        (5 + 5 + 30) * (5 + 5 + 30) := by
  rw [evalOptimTwo]
  refine ⟨rfl, ?_, ?_, by norm_num⟩
  · simp [mapGet]
  · simp [mapGet, show ¬ (strNorthernEurope = strWesternEurope) from by decide]

/-- C3 (amended): whenever the optimisation loop exits before the iteration
cap (the convergence break fired), the total absolute movement of the final
iteration is below the threshold 1. Early exit does NOT guarantee pairwise
separation: boundary-clamped circles can converge while still overlapping, as
the counterexample shows. -/
theorem claim_C3_amended (sq : ℚ → ℚ) (regions : List Region)
    (packWidth packHeight : ℚ)
    (hconv : (calculateOptimalPositions sq regions packWidth packHeight).convergedEarly =
      true) :
    (calculateOptimalPositions sq regions packWidth packHeight).lastMovement < 1 := by
  rw [calculateOptimalPositions] at hconv ⊢
  exact optimLoop_converged sq regions packWidth packHeight 50 _ hconv

/-- C3 witness: the amended statement instantiated on the concrete converging
run of the counterexample configuration. -/
theorem claim_C3_witness :
    (calculateOptimalPositions ratSqrt
      [⟨strNorthernEurope, 5, Quadrant.top⟩, ⟨strWesternEurope, 5, Quadrant.left⟩]
      16 12).lastMovement < 1 :=
  claim_C3_amended ratSqrt
    [⟨strNorthernEurope, 5, Quadrant.top⟩, ⟨strWesternEurope, 5, Quadrant.left⟩]
    16 12 (by rw [evalOptimTwo])

/-! ### Structure of nodes under `positionRegionCircles` -/

/-- The immutable part of a node: everything except `x` and `y`. -/
def shapeOf (n : CNode) : Str × Nat × ℚ × Option Nat :=
  (n.name, n.depth, n.r, n.parent)

theorem updAt_get_other (f : CNode → CNode) :
    ∀ (l : List CNode) (i j : Nat), j ≠ i → (updAt i f l)[j]? = l[j]? := by
  intro l
  induction l with
  | nil => intro i j _; simp [updAt]
  | cons n rest ih =>
    intro i j hji
    cases i with
    | zero =>
      cases j with
      | zero => exact absurd rfl hji
      | succ j' => simp [updAt]
    | succ i' =>
      cases j with
      | zero => simp [updAt]
      | succ j' =>
        simp only [updAt, List.getElem?_cons_succ]
        exact ih i' j' (fun hc => hji (by rw [hc]))

theorem updAt_get_self (f : CNode → CNode) :
    ∀ (l : List CNode) (i : Nat), (updAt i f l)[i]? = (l[i]?).map f := by
  intro l
  induction l with
  | nil => intro i; simp [updAt]
  | cons n rest ih =>
    intro i
    cases i with
    | zero => simp [updAt]
    | succ i' =>
      simp only [updAt, List.getElem?_cons_succ]
      exact ih i'

theorem updAt_shape (f : CNode → CNode) (hf : ∀ n, shapeOf (f n) = shapeOf n) :
    ∀ (l : List CNode) (i : Nat), (updAt i f l).map shapeOf = l.map shapeOf := by
  intro l
  induction l with
  | nil => intro i; simp [updAt]
  | cons n rest ih =>
    intro i
    cases i with
    | zero => simp [updAt, hf]
    | succ i' => simp [updAt, ih i']

theorem mapIdxAux_get (f : Nat → CNode → CNode) :
    ∀ (l : List CNode) (k j : Nat), (mapIdxAux f k l)[j]? = (l[j]?).map (f (k + j)) := by
  intro l
  induction l with
  | nil => intro k j; rfl
  | cons n rest ih =>
    intro k j
    cases j with
    | zero => simp [mapIdxAux]
    | succ j' =>
      simp only [mapIdxAux, List.getElem?_cons_succ, ih (k + 1) j']
      have : k + 1 + j' = k + (j' + 1) := by omega
      rw [this]

theorem mapIdxAux_shape (f : Nat → CNode → CNode)
    (hf : ∀ j n, shapeOf (f j n) = shapeOf n) :
    ∀ (l : List CNode) (k : Nat), (mapIdxAux f k l).map shapeOf = l.map shapeOf := by
  intro l
  induction l with
  | nil => intro k; rfl
  | cons n rest ih =>
    intro k
    simp [mapIdxAux, hf, ih]

theorem shape_map_get {l l' : List CNode} (h : l.map shapeOf = l'.map shapeOf) (i : Nat) :
    (l[i]?).map shapeOf = (l'[i]?).map shapeOf := by
  rw [← List.getElem?_map, ← List.getElem?_map, h]

theorem shape_map_length {l l' : List CNode} (h : l.map shapeOf = l'.map shapeOf) :
    l.length = l'.length := by
  have := congrArg List.length h
  simpa using this

theorem parentIdx_congr {l l' : List CNode} (h : l.map shapeOf = l'.map shapeOf)
    (c : Nat) : parentIdx l c = parentIdx l' c := by
  have hsg := shape_map_get h c
  cases h1 : l[c]? with
  | none =>
    cases h2 : l'[c]? with
    | none => unfold parentIdx; rw [h1, h2]
    | some n' => rw [h1, h2] at hsg; cases hsg
  | some n =>
    cases h2 : l'[c]? with
    | none => rw [h1, h2] at hsg; cases hsg
    | some n' =>
      rw [h1, h2] at hsg
      have hpar : n.parent = n'.parent := by
        have := Option.some.inj hsg
        unfold shapeOf at this
        exact congrArg (fun t => t.2.2.2) this
      unfold parentIdx
      rw [h1, h2]
      exact hpar

theorem isDescChain_congr {l l' : List CNode} (h : l.map shapeOf = l'.map shapeOf) :
    ∀ (fuel : Nat) (cur : Option Nat) (anc : Nat),
      isDescChain l fuel cur anc = isDescChain l' fuel cur anc := by
  intro fuel
  induction fuel with
  | zero => intro cur anc; rfl
  | succ fuel ih =>
    intro cur anc
    cases cur with
    | none => rfl
    | some c =>
      show (if c = anc then true else isDescChain l fuel (parentIdx l c) anc) =
        (if c = anc then true else isDescChain l' fuel (parentIdx l' c) anc)
      by_cases hc : c = anc
      · rw [if_pos hc, if_pos hc]
      · rw [if_neg hc, if_neg hc, parentIdx_congr h c]
        exact ih (parentIdx l' c) anc

theorem isDescendantOf_congr {l l' : List CNode} (h : l.map shapeOf = l'.map shapeOf)
    (i anc : Nat) : isDescendantOf l i anc = isDescendantOf l' i anc := by
  unfold isDescendantOf
  have hsg := shape_map_get h i
  have hlen := shape_map_length h
  have hisSome : (l[i]?).isSome = (l'[i]?).isSome := by
    cases h1 : l[i]? with
    | none =>
      cases h2 : l'[i]? with
      | none => rfl
      | some n' => rw [h1, h2] at hsg; cases hsg
    | some n =>
      cases h2 : l'[i]? with
      | none => rw [h1, h2] at hsg; cases hsg
      | some n' => rfl
  rw [hlen, hisSome, parentIdx_congr h i, isDescChain_congr h l'.length (parentIdx l' i) anc]

theorem updChildren_shape (ri : Nat) (newPos orig : Pt) (nodes : List CNode) :
    (updChildren ri newPos orig nodes).map shapeOf = nodes.map shapeOf := by
  unfold updChildren
  exact mapIdxAux_shape _ (by
    intro j n
    by_cases hc : 1 < n.depth ∧ isDescendantOf nodes j ri = true
    · rw [if_pos hc]; rfl
    · rw [if_neg hc]) nodes 0

theorem updChildren_get (ri : Nat) (newPos orig : Pt) (nodes : List CNode) (j : Nat) :
    (updChildren ri newPos orig nodes)[j]? = (nodes[j]?).map (fun n =>
      if 1 < n.depth ∧ isDescendantOf nodes j ri = true then
        { n with x := newPos.x + (n.x - orig.x), y := newPos.y + (n.y - orig.y) }
      else n) := by
  unfold updChildren
  rw [mapIdxAux_get]
  simp

/-! ### Case equations and invariants of `applyRegions` -/

theorem applyRegions_cons_none (origs : Nat → Pt) (positions : PosMap) (ri : Nat)
    (rest : List Nat) (nodes : List CNode) (h1 : nodes[ri]? = none) :
    applyRegions origs positions (ri :: rest) nodes =
      applyRegions origs positions rest nodes := by
  rw [applyRegions, h1]

theorem applyRegions_cons_skip (origs : Nat → Pt) (positions : PosMap) (ri : Nat)
    (rest : List Nat) (nodes : List CNode) (rn : CNode) (h1 : nodes[ri]? = some rn)
    (hg : ¬ (rn.name ≠ [] ∧ (mapGet positions rn.name).isSome = true)) :
    applyRegions origs positions (ri :: rest) nodes =
      applyRegions origs positions rest nodes := by
  rw [applyRegions]
  simp only [h1]
  rw [if_neg hg]

theorem applyRegions_cons_exec (origs : Nat → Pt) (positions : PosMap) (ri : Nat)
    (rest : List Nat) (nodes : List CNode) (rn : CNode) (newPos : Pt)
    (h1 : nodes[ri]? = some rn) (hname : rn.name ≠ [])
    (hpos : mapGet positions rn.name = some newPos) :
    applyRegions origs positions (ri :: rest) nodes =
      applyRegions origs positions rest
        (updChildren ri newPos (origs ri)
          (updAt ri (fun n => { n with x := newPos.x, y := newPos.y }) nodes)) := by
  rw [applyRegions]
  simp only [h1]
  rw [if_pos ⟨hname, by rw [hpos]; rfl⟩]
  simp only [hpos]

theorem applyRegions_total (origs : Nat → Pt) (positions : PosMap) :
    ∀ (ris : List Nat) (nodes : List CNode),
      ∃ out, applyRegions origs positions ris nodes = .ok out := by
  intro ris
  induction ris with
  | nil => intro nodes; exact ⟨nodes, rfl⟩
  | cons ri rest ih =>
    intro nodes
    cases h1 : nodes[ri]? with
    | none => rw [applyRegions_cons_none origs positions ri rest nodes h1]; exact ih nodes
    | some rn =>
      by_cases hg : rn.name ≠ [] ∧ (mapGet positions rn.name).isSome = true
      · obtain ⟨p, hp⟩ := Option.isSome_iff_exists.mp hg.2
        rw [applyRegions_cons_exec origs positions ri rest nodes rn p h1 hg.1 hp]
        exact ih _
      · rw [applyRegions_cons_skip origs positions ri rest nodes rn h1 hg]
        exact ih nodes

theorem applyRegions_shape (origs : Nat → Pt) (positions : PosMap) :
    ∀ (ris : List Nat) (nodes out : List CNode),
      applyRegions origs positions ris nodes = .ok out →
      out.map shapeOf = nodes.map shapeOf := by
  intro ris
  induction ris with
  | nil =>
    intro nodes out h
    rw [applyRegions] at h
    injection h with h'
    rw [h']
  | cons ri rest ih =>
    intro nodes out h
    cases h1 : nodes[ri]? with
    | none =>
      rw [applyRegions_cons_none origs positions ri rest nodes h1] at h
      exact ih nodes out h
    | some rn =>
      by_cases hg : rn.name ≠ [] ∧ (mapGet positions rn.name).isSome = true
      · obtain ⟨p, hp⟩ := Option.isSome_iff_exists.mp hg.2
        rw [applyRegions_cons_exec origs positions ri rest nodes rn p h1 hg.1 hp] at h
        rw [ih _ out h, updChildren_shape,
          updAt_shape (fun n => { n with x := p.x, y := p.y }) (fun n => rfl)]
      · rw [applyRegions_cons_skip origs positions ri rest nodes rn h1 hg] at h
        exact ih nodes out h

theorem applyRegions_append (origs : Nat → Pt) (positions : PosMap) :
    ∀ (l1 l2 : List Nat) (nodes : List CNode),
      applyRegions origs positions (l1 ++ l2) nodes =
        match applyRegions origs positions l1 nodes with
        | .ok mid => applyRegions origs positions l2 mid
        | .error e => .error e := by
  intro l1
  induction l1 with
  | nil => intro l2 nodes; rfl
  | cons ri rest ih =>
    intro l2 nodes
    cases h1 : nodes[ri]? with
    | none =>
      rw [List.cons_append, applyRegions_cons_none origs positions ri (rest ++ l2) nodes h1,
        applyRegions_cons_none origs positions ri rest nodes h1, ih]
    | some rn =>
      by_cases hg : rn.name ≠ [] ∧ (mapGet positions rn.name).isSome = true
      · obtain ⟨p, hp⟩ := Option.isSome_iff_exists.mp hg.2
        rw [List.cons_append,
          applyRegions_cons_exec origs positions ri (rest ++ l2) nodes rn p h1 hg.1 hp,
          applyRegions_cons_exec origs positions ri rest nodes rn p h1 hg.1 hp, ih]
      · rw [List.cons_append, applyRegions_cons_skip origs positions ri (rest ++ l2) nodes rn h1 hg,
          applyRegions_cons_skip origs positions ri rest nodes rn h1 hg, ih]

/-- Indices not touched by any pass of `applyRegions` keep their entries.
The per-region condition is phrased against a fixed reference list `base`
whose shapes agree with the running state: each listed region either fails
the guard (no node, empty name, or no computed position), or differs from
`k` while `k`'s node is not one of its moved descendants. -/
theorem applyRegions_untouched (origs : Nat → Pt) (positions : PosMap)
    (base : List CNode) (k : Nat) (nk : CNode) (hk : base[k]? = some nk) :
    ∀ (ris : List Nat) (cur : List CNode) (out : List CNode),
      applyRegions origs positions ris cur = .ok out →
      cur.map shapeOf = base.map shapeOf →
      (∀ ri ∈ ris,
        (∀ rn', base[ri]? = some rn' →
          rn'.name = [] ∨ mapGet positions rn'.name = none) ∨
        (k ≠ ri ∧ ¬ (1 < nk.depth ∧ isDescendantOf base k ri = true))) →
      out[k]? = cur[k]? := by
  intro ris
  induction ris with
  | nil =>
    intro cur out h _ _
    rw [applyRegions] at h
    injection h with h'
    rw [h']
  | cons ri rest ih =>
    intro cur out h hshape hcond
    have hcond_ri := hcond ri (List.mem_cons_self ri rest)
    have hcond_rest : ∀ ri' ∈ rest,
        (∀ rn', base[ri']? = some rn' →
          rn'.name = [] ∨ mapGet positions rn'.name = none) ∨
        (k ≠ ri' ∧ ¬ (1 < nk.depth ∧ isDescendantOf base k ri' = true)) :=
      fun ri' hri' => hcond ri' (List.mem_cons_of_mem ri hri')
    cases h1 : cur[ri]? with
    | none =>
      rw [applyRegions_cons_none origs positions ri rest cur h1] at h
      exact ih cur out h hshape hcond_rest
    | some rn =>
      by_cases hg : rn.name ≠ [] ∧ (mapGet positions rn.name).isSome = true
      · obtain ⟨p, hp⟩ := Option.isSome_iff_exists.mp hg.2
        rw [applyRegions_cons_exec origs positions ri rest cur rn p h1 hg.1 hp] at h
        -- the guard passed, so the first disjunct for `ri` is impossible
        have hbase_ri : ∃ rn', base[ri]? = some rn' ∧ shapeOf rn' = shapeOf rn := by
          have hsg := shape_map_get hshape ri
          rw [h1] at hsg
          cases h2 : base[ri]? with
          | none => rw [h2] at hsg; cases hsg
          | some rn' =>
            rw [h2] at hsg
            exact ⟨rn', rfl, (Option.some.inj hsg).symm⟩
        obtain ⟨rn', hrn', hshape'⟩ := hbase_ri
        have hname' : rn'.name = rn.name := congrArg (fun t => t.1) hshape'
        have hsecond : k ≠ ri ∧ ¬ (1 < nk.depth ∧ isDescendantOf base k ri = true) := by
          rcases hcond_ri with hfirst | hsecond
          · rcases hfirst rn' hrn' with hn | hn
            · exact absurd (hname' ▸ hn) hg.1
            · rw [hname', hp] at hn
              cases hn
          · exact hsecond
        set nodes1 := updAt ri (fun n => { n with x := p.x, y := p.y }) cur with hn1
        have hn1shape : nodes1.map shapeOf = base.map shapeOf := by
          rw [hn1, updAt_shape (fun n => { n with x := p.x, y := p.y }) (fun n => rfl),
            hshape]
        have hn1k : nodes1[k]? = cur[k]? := updAt_get_other _ cur ri k hsecond.1
        set nodes2 := updChildren ri p (origs ri) nodes1 with hn2
        have hn2shape : nodes2.map shapeOf = base.map shapeOf := by
          rw [hn2, updChildren_shape, hn1shape]
        have hcurk : cur[k]? = some nk ∨ ∃ ck, cur[k]? = some ck ∧ shapeOf ck = shapeOf nk := by
          have hsg := shape_map_get hshape k
          rw [hk] at hsg
          cases h2 : cur[k]? with
          | none => rw [h2] at hsg; cases hsg
          | some ck =>
            rw [h2] at hsg
            exact Or.inr ⟨ck, rfl, Option.some.inj hsg⟩
        have hn2k : nodes2[k]? = cur[k]? := by
          rw [hn2, updChildren_get, hn1k]
          rcases hcurk with hck | ⟨ck, hck, hckshape⟩
          · rw [hck]
            have hdesc : isDescendantOf nodes1 k ri = isDescendantOf base k ri :=
              isDescendantOf_congr hn1shape k ri
            refine congrArg some (if_neg ?_)
            intro hc
            exact hsecond.2 ⟨hc.1, by rw [← hdesc]; exact hc.2⟩
          · rw [hck]
            have hdesc : isDescendantOf nodes1 k ri = isDescendantOf base k ri :=
              isDescendantOf_congr hn1shape k ri
            have hdepth : ck.depth = nk.depth := congrArg (fun t => t.2.1) hckshape
            refine congrArg some (if_neg ?_)
            intro hc
            exact hsecond.2 ⟨hdepth ▸ hc.1, by rw [← hdesc]; exact hc.2⟩
        rw [ih nodes2 out h hn2shape hcond_rest, hn2k]
      · rw [applyRegions_cons_skip origs positions ri rest cur rn h1 hg] at h
        exact ih cur out h hshape hcond_rest

/-! ### Region indices and resolution lemmas -/

theorem regionIndices_nodup (nodes : List CNode) : (regionIndices nodes).Nodup :=
  List.Nodup.filter _ (List.nodup_range _)

theorem mem_regionIndices {nodes : List CNode} {ri : Nat} {rn : CNode}
    (hrn : nodes[ri]? = some rn) (hd : rn.depth = 1) : ri ∈ regionIndices nodes := by
  unfold regionIndices
  rw [List.mem_filter]
  constructor
  · rw [List.mem_range]
    by_contra hc
    push_neg at hc
    rw [List.getElem?_eq_none hc] at hrn
    cases hrn
  · simp only [hrn]
    simp [hd]

theorem of_mem_regionIndices {nodes : List CNode} {ri : Nat}
    (h : ri ∈ regionIndices nodes) : ∃ rn, nodes[ri]? = some rn ∧ rn.depth = 1 := by
  unfold regionIndices at h
  rw [List.mem_filter] at h
  rcases h with ⟨_, hp⟩
  cases h1 : nodes[ri]? with
  | none =>
    simp only [h1] at hp
    cases hp
  | some rn =>
    simp only [h1] at hp
    exact ⟨rn, rfl, by simpa using hp⟩

theorem quadrantAssignment_ne_nil {n : Str} {q : Quadrant}
    (h : quadrantAssignment n = some q) : n ≠ [] := by
  intro hnil
  rw [hnil, show quadrantAssignment [] = none from by decide] at h
  cases h

theorem resolveRegions_mem (nodes : List CNode) :
    ∀ (ris : List Nat) (regions : List Region) (ri : Nat) (rn : CNode),
      resolveRegions nodes ris = some regions → ri ∈ ris → nodes[ri]? = some rn →
      (∃ q, quadrantAssignment rn.name = some q) ∧ ∃ reg ∈ regions, reg.name = rn.name := by
  intro ris
  induction ris with
  | nil => intro regions ri rn _ hmem _; cases hmem
  | cons ri' rest ih =>
    intro regions ri rn hres hmem hrn
    rw [resolveRegions] at hres
    cases h1 : nodes[ri']? with
    | none =>
      simp only [h1] at hres
      rcases List.mem_cons.mp hmem with heq | hmem2
      · subst heq
        rw [hrn] at h1
        cases h1
      · exact ih regions ri rn hres hmem2 hrn
    | some rn' =>
      simp only [h1] at hres
      cases h2 : quadrantAssignment rn'.name with
      | none =>
        simp only [h2] at hres
        cases hres
      | some q =>
        simp only [h2] at hres
        cases h3 : resolveRegions nodes rest with
        | none => rw [h3] at hres; cases hres
        | some rs' =>
          rw [h3] at hres
          have hreg : (⟨rn'.name, rn'.r, q⟩ : Region) :: rs' = regions :=
            Option.some.inj hres
          rcases List.mem_cons.mp hmem with heq | hmem2
          · subst heq
            rw [hrn] at h1
            have he : rn = rn' := Option.some.inj h1
            refine ⟨⟨q, by rw [he]; exact h2⟩,
              ⟨⟨rn'.name, rn'.r, q⟩, ?_, by rw [he]⟩⟩
            rw [← hreg]
            exact List.mem_cons_self _ _
          · obtain ⟨hqex, reg, hregmem, hregname⟩ := ih rs' ri rn h3 hmem2 hrn
            exact ⟨hqex, reg, by rw [← hreg]; exact List.mem_cons_of_mem _ hregmem,
              hregname⟩

theorem calcPositions_isSome (sq : ℚ → ℚ) (regions : List Region)
    (packWidth packHeight : ℚ) (reg : Region) (hmem : reg ∈ regions) :
    (mapGet (calculateOptimalPositions sq regions packWidth packHeight).positions
      reg.name).isSome = true := by
  rw [calculateOptimalPositions]
  exact optimLoop_isSome sq regions packWidth packHeight reg.name 50 _
    (seedPositions_isSome packWidth packHeight regions [] reg hmem)

/-! ### Concrete hierarchies for the `positionRegionCircles` claims -/

/-- Root name `"Europe"`. -/
def strEurope : Str := "Europe".data

/-- Leaf name `"Iceland"`. -/
def strIceland : Str := "Iceland".data

/-- Root node of the concrete hierarchies. -/
def rootEuro : CNode := ⟨strEurope, 0, 8, 6, 6, none⟩

/-- Region circle packed at `x = 0` (JavaScript-falsy coordinate). -/
def regionNE0 : CNode := ⟨strNorthernEurope, 1, 0, 3, 1, some 0⟩

/-- Leaf of the zero-x hierarchy. -/
def childIce0 : CNode := ⟨strIceland, 2, 2, 2, 1, some 1⟩

/-- Hierarchy whose region circle is packed at `x = 0`. -/
def nodesZero : List CNode := [rootEuro, regionNE0, childIce0]

/-- Region circle packed at `(2, 3)` (both coordinates truthy). -/
def regionNE1 : CNode := ⟨strNorthernEurope, 1, 2, 3, 1, some 0⟩

/-- Leaf of the truthy hierarchy. -/
def childIce1 : CNode := ⟨strIceland, 2, 3, 4, 1, some 1⟩

/-- Hierarchy whose region circle has truthy packed coordinates. -/
def nodesOne : List CNode := [rootEuro, regionNE1, childIce1]

/-! ### Claim C7 about the missing-position path -/

/-- C7 counterexample. The claim says that when the computed positions map
yields no entry for a region circle that exists, the operation throws.
Running the application pass with an empty positions map over a hierarchy
containing the region circle returns `Except.ok` with every node unchanged:
the `positions.has` guard silently skips the region, and the `throw` after
the lookup is unreachable. -/
theorem claim_C7_cex :
    applyRegions (fun _ => ⟨8, 6⟩) [] [1] nodesOne = .ok nodesOne := by
  rw [applyRegions_cons_skip (fun _ => ⟨8, 6⟩) [] 1 [] nodesOne regionNE1
    (by decide) (by simp [mapGet])]
  rfl

/-- C7 (amended): the application pass of `positionRegionCircles` never
throws — for every original-centre table, positions map, region index list
and hierarchy it returns `Except.ok` (the `throw` branch is dead behind the
`positions.has` guard); and a region circle whose name has no entry in the
computed positions map is silently skipped, keeping its packed entry
unchanged, rather than raising an error. A region name present in the
assignment map with no corresponding circle is never iterated at all (the
pass iterates circles, not map keys), so it is likewise skipped without
error, as the claim states. -/
theorem claim_C7_amended (origs : Nat → Pt) (positions : PosMap) (ris : List Nat)
    (nodes : List CNode) :
    (∃ out, applyRegions origs positions ris nodes = .ok out)
    ∧ (∀ out ri rn, applyRegions origs positions ris nodes = .ok out →
        ri ∈ ris → nodes[ri]? = some rn → rn.depth = 1 →
        mapGet positions rn.name = none →
        out[ri]? = some rn) := by
  constructor
  · exact applyRegions_total origs positions ris nodes
  · intro out ri rn hres hmem hrn hdepth hpos
    have := applyRegions_untouched origs positions nodes ri rn hrn ris nodes out hres
      rfl ?_
    · rw [this, hrn]
    · intro ri' hri'
      by_cases heq : ri' = ri
      · subst heq
        exact Or.inl (fun rn' hrn' => by
          rw [hrn] at hrn'
          rw [← Option.some.inj hrn']
          exact Or.inr hpos)
      · exact Or.inr ⟨fun hc => heq (hc.symm), by
          intro hc
          rw [hdepth] at hc
          exact absurd hc.1 (by norm_num)⟩

/-- C7 witness: the amended skip behaviour instantiated on the concrete
hierarchy with an empty positions map: the pass succeeds and the region
keeps its packed entry. -/
theorem claim_C7_witness :
    nodesOne[1]? = some regionNE1 := by
  have h := (claim_C7_amended (fun _ => ⟨8, 6⟩) [] [1] nodesOne).2 nodesOne 1 regionNE1
    (by
      rw [applyRegions_cons_skip (fun _ => ⟨8, 6⟩) [] 1 [] nodesOne regionNE1
        (by decide) (by simp [mapGet])]
      rfl)
    (by decide) (by decide) (by decide) (by simp [mapGet])
  exact h

/-! ### Concrete pipeline runs -/

/-- Radius-1 region in the top quadrant of a 16 x 12 pack: pinned by the
clamp at `(26, 26)`, converging in the second iteration. -/
theorem evalOptimR1 :
    calculateOptimalPositions ratSqrt [⟨strNorthernEurope, 1, Quadrant.top⟩] 16 12 =
      ⟨[(strNorthernEurope, ⟨26, 26⟩)], true, 0⟩ := by
  have hseed : seedPositions 16 12 [⟨strNorthernEurope, 1, Quadrant.top⟩] [] =
      [(strNorthernEurope, ⟨8, 3⟩)] := by
    norm_num [seedPositions, mapSet, quadrantBounds]
  have hforce : ∀ pos : PosMap,
      computeForces ratSqrt [⟨strNorthernEurope, 1, Quadrant.top⟩] pos =
        [(strNorthernEurope, ⟨0, 0⟩)] := by
    intro pos
    norm_num [computeForces, forcePairs, allPairs, initForces, mapSet]
  have h1 : applyForces 16 12
      (computeForces ratSqrt [⟨strNorthernEurope, 1, Quadrant.top⟩]
        [(strNorthernEurope, ⟨8, 3⟩)])
      [⟨strNorthernEurope, 1, Quadrant.top⟩] [(strNorthernEurope, ⟨8, 3⟩)] 0 =
      ([(strNorthernEurope, ⟨26, 26⟩)], 41) := by
    rw [hforce]
    norm_num [applyForces, mapGet, mapSet, clampPt, quadrantBounds]
  have h2 : applyForces 16 12
      (computeForces ratSqrt [⟨strNorthernEurope, 1, Quadrant.top⟩]
        [(strNorthernEurope, ⟨26, 26⟩)])
      [⟨strNorthernEurope, 1, Quadrant.top⟩] [(strNorthernEurope, ⟨26, 26⟩)] 0 =
      ([(strNorthernEurope, ⟨26, 26⟩)], 0) := by
    rw [hforce]
    norm_num [applyForces, mapGet, mapSet, clampPt, quadrantBounds]
  rw [calculateOptimalPositions, hseed,
    optimLoop_cont (by norm_num) h1 (by norm_num),
    optimLoop_break (by norm_num) h2 (by norm_num)]

/-- The full pipeline on the hierarchy whose region is packed at `x = 0`:
the recorded original centre falls back to the container centre `8`, so the
child is translated by the offset from `(8, 3)` rather than from `(0, 3)`. -/
theorem evalPosRegionZero :
    positionRegionCircles ratSqrt nodesZero 16 12 =
      .ok [rootEuro, ⟨strNorthernEurope, 1, 26, 26, 1, some 0⟩,
        ⟨strIceland, 2, 20, 25, 1, some 1⟩] := by
  have hri : regionIndices nodesZero = [1] := by decide
  have hres : resolveRegions nodesZero [1] =
      some [⟨strNorthernEurope, 1, Quadrant.top⟩] := by decide
  have hget : nodesZero[1]? = some regionNE0 := by decide
  rw [positionRegionCircles, if_neg (by norm_num [nodesZero]), hri,
    if_neg (by norm_num), hres]
  simp only []
  rw [evalOptimR1]
  have horig : originalPos nodesZero (16 / 2) (12 / 2) 1 = ⟨8, 3⟩ := by
    unfold originalPos
    rw [hget]
    norm_num [regionNE0]
  rw [applyRegions_cons_exec _ _ 1 [] nodesZero regionNE0 ⟨26, 26⟩ hget (by decide)
    (by show mapGet [(strNorthernEurope, (⟨26, 26⟩ : Pt))] strNorthernEurope = _
        simp [mapGet])]
  rw [horig]
  have hupd : updAt 1
      (fun n : CNode => { n with x := (⟨26, 26⟩ : Pt).x, y := (⟨26, 26⟩ : Pt).y })
      nodesZero =
      [rootEuro, ⟨strNorthernEurope, 1, 26, 26, 1, some 0⟩, childIce0] := by
    simp [updAt, nodesZero, regionNE0]
  rw [hupd]
  have hchild : updChildren 1 ⟨26, 26⟩ ⟨8, 3⟩
      [rootEuro, ⟨strNorthernEurope, 1, 26, 26, 1, some 0⟩, childIce0] =
      [rootEuro, ⟨strNorthernEurope, 1, 26, 26, 1, some 0⟩,
        ⟨strIceland, 2, 20, 25, 1, some 1⟩] := by
    unfold updChildren
    norm_num [mapIdxAux, rootEuro, childIce0,
      show isDescendantOf [⟨strEurope, 0, 8, 6, 6, none⟩,
        ⟨strNorthernEurope, 1, 26, 26, 1, some 0⟩,
        ⟨strIceland, 2, 2, 2, 1, some 1⟩] 2 1 = true from by decide,
      show isDescendantOf [⟨strEurope, 0, 8, 6, 6, none⟩,
        ⟨strNorthernEurope, 1, 26, 26, 1, some 0⟩,
        ⟨strIceland, 2, 2, 2, 1, some 1⟩] 1 1 = false from by decide,
      show isDescendantOf [⟨strEurope, 0, 8, 6, 6, none⟩,
        ⟨strNorthernEurope, 1, 26, 26, 1, some 0⟩,
        ⟨strIceland, 2, 2, 2, 1, some 1⟩] 0 1 = false from by decide]
  rw [hchild, applyRegions]

/-- The full pipeline on the hierarchy whose region is packed at `(2, 3)`:
the child is rigidly translated by the region's displacement. -/
theorem evalPosRegionOne :
    positionRegionCircles ratSqrt nodesOne 16 12 =
      .ok [rootEuro, ⟨strNorthernEurope, 1, 26, 26, 1, some 0⟩,
        ⟨strIceland, 2, 27, 27, 1, some 1⟩] := by
  have hri : regionIndices nodesOne = [1] := by decide
  have hres : resolveRegions nodesOne [1] =
      some [⟨strNorthernEurope, 1, Quadrant.top⟩] := by decide
  have hget : nodesOne[1]? = some regionNE1 := by decide
  rw [positionRegionCircles, if_neg (by norm_num [nodesOne]), hri,
    if_neg (by norm_num), hres]
  simp only []
  rw [evalOptimR1]
  have horig : originalPos nodesOne (16 / 2) (12 / 2) 1 = ⟨2, 3⟩ := by
    unfold originalPos
    rw [hget]
    norm_num [regionNE1]
  rw [applyRegions_cons_exec _ _ 1 [] nodesOne regionNE1 ⟨26, 26⟩ hget (by decide)
    (by show mapGet [(strNorthernEurope, (⟨26, 26⟩ : Pt))] strNorthernEurope = _
        simp [mapGet])]
  rw [horig]
  have hupd : updAt 1
      (fun n : CNode => { n with x := (⟨26, 26⟩ : Pt).x, y := (⟨26, 26⟩ : Pt).y })
      nodesOne =
      [rootEuro, ⟨strNorthernEurope, 1, 26, 26, 1, some 0⟩, childIce1] := by
    simp [updAt, nodesOne, regionNE1]
  rw [hupd]
  have hchild : updChildren 1 ⟨26, 26⟩ ⟨2, 3⟩
      [rootEuro, ⟨strNorthernEurope, 1, 26, 26, 1, some 0⟩, childIce1] =
      [rootEuro, ⟨strNorthernEurope, 1, 26, 26, 1, some 0⟩,
        ⟨strIceland, 2, 27, 27, 1, some 1⟩] := by
    unfold updChildren
    norm_num [mapIdxAux, rootEuro, childIce1,
      show isDescendantOf [⟨strEurope, 0, 8, 6, 6, none⟩,
        ⟨strNorthernEurope, 1, 26, 26, 1, some 0⟩,
        ⟨strIceland, 2, 3, 4, 1, some 1⟩] 2 1 = true from by decide,
      show isDescendantOf [⟨strEurope, 0, 8, 6, 6, none⟩,
        ⟨strNorthernEurope, 1, 26, 26, 1, some 0⟩,
        ⟨strIceland, 2, 3, 4, 1, some 1⟩] 1 1 = false from by decide,
      show isDescendantOf [⟨strEurope, 0, 8, 6, 6, none⟩,
        ⟨strNorthernEurope, 1, 26, 26, 1, some 0⟩,
        ⟨strIceland, 2, 3, 4, 1, some 1⟩] 0 1 = false from by decide]
  rw [hchild, applyRegions]

theorem applyRegions_append_ok (origs : Nat → Pt) (positions : PosMap)
    {l1 : List Nat} {nodes mid : List CNode} (l2 : List Nat)
    (h : applyRegions origs positions l1 nodes = .ok mid) :
    applyRegions origs positions (l1 ++ l2) nodes =
      applyRegions origs positions l2 mid := by
  rw [applyRegions_append, h]

/-! ### Claim C8: the frame of `positionRegionCircles` -/

/-- C8: a successful run of `positionRegionCircles` changes only `x` and `y`:
every node keeps its name (`data`), `depth`, `r` and `parent` (first
conjunct, stated through the shape projection), and every node that is
neither a region circle (depth 1) nor a descendant of one keeps its `x` and
`y` as well — its whole record is unchanged (second conjunct). -/
theorem claim_C8 (sq : ℚ → ℚ) (nodes : List CNode) (packWidth packHeight : ℚ)
    (out : List CNode)
    (hres : positionRegionCircles sq nodes packWidth packHeight = .ok out) :
    out.map shapeOf = nodes.map shapeOf
    ∧ (∀ k nk, nodes[k]? = some nk → nk.depth ≠ 1 →
        (∀ ri ∈ regionIndices nodes, isDescendantOf nodes k ri = false) →
        out[k]? = some nk) := by
  rw [positionRegionCircles] at hres
  by_cases h0 : nodes.length = 0
  · rw [if_pos h0] at hres
    injection hres with h'
    subst h'
    exact ⟨rfl, fun k nk hk _ _ => hk⟩
  · rw [if_neg h0] at hres
    by_cases h1 : (regionIndices nodes).length = 0
    · rw [if_pos h1] at hres
      injection hres with h'
      subst h'
      exact ⟨rfl, fun k nk hk _ _ => hk⟩
    · rw [if_neg h1] at hres
      cases h2 : resolveRegions nodes (regionIndices nodes) with
      | none =>
        simp only [h2] at hres
        cases hres
      | some regions =>
        simp only [h2] at hres
        constructor
        · exact applyRegions_shape _ _ _ nodes out hres
        · intro k nk hk hd hdesc
          have hout := applyRegions_untouched _ _ nodes k nk hk (regionIndices nodes)
            nodes out hres rfl ?_
          · rw [hout, hk]
          · intro ri hri
            obtain ⟨rn, hrn, hrd⟩ := of_mem_regionIndices hri
            refine Or.inr ⟨?_, ?_⟩
            · intro hkri
              subst hkri
              rw [hk] at hrn
              exact hd (by rw [Option.some.inj hrn, hrd])
            · intro hc
              have h2' := hc.2
              rw [hdesc ri hri] at h2'
              cases h2'

/-- C8 witness: the frame property instantiated on the concrete truthy run:
shapes are preserved and the root (depth 0, not a descendant) is unchanged. -/
theorem claim_C8_witness :
    ([rootEuro, ⟨strNorthernEurope, 1, 26, 26, 1, some 0⟩,
      ⟨strIceland, 2, 27, 27, 1, some 1⟩] : List CNode).map shapeOf =
      nodesOne.map shapeOf
    ∧ ([rootEuro, ⟨strNorthernEurope, 1, 26, 26, 1, some 0⟩,
      ⟨strIceland, 2, 27, 27, 1, some 1⟩] : List CNode)[0]? = some rootEuro := by
  have h := claim_C8 ratSqrt nodesOne 16 12 _ evalPosRegionOne
  refine ⟨h.1, h.2 0 rootEuro (by decide) (by decide) ?_⟩
  intro ri hri
  rw [show regionIndices nodesOne = [1] from by decide] at hri
  have hri1 : ri = 1 := by simpa using hri
  subst hri1
  decide

/-! ### Claim C1: the rigid translation of descendants -/

/-- C1 (amended): in a successful run of `positionRegionCircles`, every
descendant circle (depth > 1) of a region circle — provided the hierarchy
gives the descendant no second depth-1 ancestor and the region's packed
coordinates are both nonzero (JavaScript-truthy) — ends at the region's new
centre plus the descendant's original offset from the region's packed centre,
as exact equality in both coordinates. When a packed coordinate is zero the
recorded original centre falls back to the container centre, breaking the
claimed equality (see the counterexample). -/
theorem claim_C1_amended (sq : ℚ → ℚ) (nodes : List CNode)
    (packWidth packHeight : ℚ) (out : List CNode)
    (hres : positionRegionCircles sq nodes packWidth packHeight = .ok out)
    (ri j : Nat) (rn cn : CNode)
    (hrn : nodes[ri]? = some rn) (hd1 : rn.depth = 1)
    (hcn : nodes[j]? = some cn) (hd2 : 1 < cn.depth)
    (hdesc : isDescendantOf nodes j ri = true)
    (huniq : ∀ ri' ∈ regionIndices nodes, ri' ≠ ri →
      isDescendantOf nodes j ri' = false)
    (hx0 : rn.x ≠ 0) (hy0 : rn.y ≠ 0) :
    ∃ cn' rn', out[j]? = some cn' ∧ out[ri]? = some rn' ∧
      cn'.x = rn'.x + (cn.x - rn.x) ∧ cn'.y = rn'.y + (cn.y - rn.y) := by
  have hmem : ri ∈ regionIndices nodes := mem_regionIndices hrn hd1
  rw [positionRegionCircles] at hres
  have h0 : ¬ nodes.length = 0 := by
    intro hc
    rw [List.length_eq_zero] at hc
    rw [hc] at hrn
    simp at hrn
  have h1 : ¬ (regionIndices nodes).length = 0 := by
    intro hc
    rw [List.length_eq_zero] at hc
    rw [hc] at hmem
    cases hmem
  rw [if_neg h0, if_neg h1] at hres
  cases hresv : resolveRegions nodes (regionIndices nodes) with
  | none =>
    simp only [hresv] at hres
    cases hres
  | some regions =>
    simp only [hresv] at hres
    obtain ⟨⟨q, hq⟩, reg, hregmem, hregname⟩ :=
      resolveRegions_mem nodes (regionIndices nodes) regions ri rn hresv hmem hrn
    have hname : rn.name ≠ [] := quadrantAssignment_ne_nil hq
    have hps : (mapGet
        (calculateOptimalPositions sq regions packWidth packHeight).positions
        rn.name).isSome = true := by
      rw [← hregname]
      exact calcPositions_isSome sq regions packWidth packHeight reg hregmem
    obtain ⟨newPos, hnp⟩ := Option.isSome_iff_exists.mp hps
    obtain ⟨L1, L2, hsplit⟩ := List.append_of_mem hmem
    have hnd := regionIndices_nodup nodes
    rw [hsplit] at hnd
    have hmidnd := List.nodup_cons.mp (List.nodup_middle.mp hnd)
    have hriL1 : ri ∉ L1 := fun hc => hmidnd.1 (List.mem_append.mpr (Or.inl hc))
    have hriL2 : ri ∉ L2 := fun hc => hmidnd.1 (List.mem_append.mpr (Or.inr hc))
    have hsub1 : ∀ ri' ∈ L1, ri' ∈ regionIndices nodes := by
      intro ri' hri'
      rw [hsplit]
      exact List.mem_append.mpr (Or.inl hri')
    have hsub2 : ∀ ri' ∈ L2, ri' ∈ regionIndices nodes := by
      intro ri' hri'
      rw [hsplit]
      exact List.mem_append.mpr (Or.inr (List.mem_cons_of_mem _ hri'))
    rw [hsplit] at hres
    obtain ⟨mid, hmidrun⟩ := applyRegions_total
      (originalPos nodes (packWidth / 2) (packHeight / 2))
      (calculateOptimalPositions sq regions packWidth packHeight).positions L1 nodes
    rw [applyRegions_append_ok _ _ _ hmidrun] at hres
    have hshapemid : mid.map shapeOf = nodes.map shapeOf :=
      applyRegions_shape _ _ L1 nodes mid hmidrun
    have hcond_j : ∀ (L : List Nat), (∀ ri' ∈ L, ri' ∈ regionIndices nodes) →
        ri ∉ L →
        ∀ ri' ∈ L,
          (∀ rn', nodes[ri']? = some rn' →
            rn'.name = [] ∨ mapGet
              (calculateOptimalPositions sq regions packWidth packHeight).positions
              rn'.name = none) ∨
          (j ≠ ri' ∧ ¬ (1 < cn.depth ∧ isDescendantOf nodes j ri' = true)) := by
      intro L hLsub hLri ri' hri'
      obtain ⟨rn', hrn', hrd'⟩ := of_mem_regionIndices (hLsub ri' hri')
      refine Or.inr ⟨?_, ?_⟩
      · intro hjri
        subst hjri
        rw [hcn] at hrn'
        have := Option.some.inj hrn'
        rw [← this] at hrd'
        omega
      · intro hc
        have hne : ri' ≠ ri := fun hc2 => hLri (hc2 ▸ hri')
        have h2' := hc.2
        rw [huniq ri' (hLsub ri' hri') hne] at h2'
        cases h2'
    have hcond_ri : ∀ (L : List Nat), ri ∉ L →
        ∀ ri' ∈ L,
          (∀ rn', nodes[ri']? = some rn' →
            rn'.name = [] ∨ mapGet
              (calculateOptimalPositions sq regions packWidth packHeight).positions
              rn'.name = none) ∨
          (ri ≠ ri' ∧ ¬ (1 < rn.depth ∧ isDescendantOf nodes ri ri' = true)) := by
      intro L hLri ri' hri'
      refine Or.inr ⟨fun hc => hLri (hc ▸ hri'), ?_⟩
      intro hc
      rw [hd1] at hc
      exact absurd hc.1 (by norm_num)
    have hmidj : mid[j]? = nodes[j]? :=
      applyRegions_untouched _ _ nodes j cn hcn L1 nodes mid hmidrun rfl
        (hcond_j L1 hsub1 hriL1)
    have hmidri : mid[ri]? = nodes[ri]? :=
      applyRegions_untouched _ _ nodes ri rn hrn L1 nodes mid hmidrun rfl
        (hcond_ri L1 hriL1)
    have hmidri' : mid[ri]? = some rn := by rw [hmidri, hrn]
    rw [applyRegions_cons_exec _ _ ri L2 mid rn newPos hmidri' hname hnp] at hres
    have hjne : j ≠ ri := by
      intro hc
      rw [hc, hrn] at hcn
      have heq := Option.some.inj hcn
      rw [heq] at hd1
      omega
    have hn1shape :
        (updAt ri (fun n => { n with x := newPos.x, y := newPos.y }) mid).map shapeOf =
          nodes.map shapeOf := by
      rw [updAt_shape (fun n => { n with x := newPos.x, y := newPos.y }) (fun n => rfl),
        hshapemid]
    have hn2shape :
        (updChildren ri newPos
          (originalPos nodes (packWidth / 2) (packHeight / 2) ri)
          (updAt ri (fun n => { n with x := newPos.x, y := newPos.y }) mid)).map shapeOf =
          nodes.map shapeOf := by
      rw [updChildren_shape, hn1shape]
    have hn1j :
        (updAt ri (fun n => { n with x := newPos.x, y := newPos.y }) mid)[j]? = some cn := by
      rw [updAt_get_other _ mid ri j hjne, hmidj, hcn]
    have hn1ri :
        (updAt ri (fun n => { n with x := newPos.x, y := newPos.y }) mid)[ri]? =
          some { rn with x := newPos.x, y := newPos.y } := by
      rw [updAt_get_self, hmidri']
      rfl
    have horigri : originalPos nodes (packWidth / 2) (packHeight / 2) ri =
        ⟨rn.x, rn.y⟩ := by
      unfold originalPos
      rw [hrn]
      show (⟨if rn.x = 0 then packWidth / 2 else rn.x,
        if rn.y = 0 then packHeight / 2 else rn.y⟩ : Pt) = _
      rw [if_neg hx0, if_neg hy0]
    have hdesc1 : isDescendantOf
        (updAt ri (fun n => { n with x := newPos.x, y := newPos.y }) mid) j ri = true := by
      rw [isDescendantOf_congr hn1shape j ri]
      exact hdesc
    have hn2j :
        (updChildren ri newPos
          (originalPos nodes (packWidth / 2) (packHeight / 2) ri)
          (updAt ri (fun n => { n with x := newPos.x, y := newPos.y }) mid))[j]? =
          some ⟨cn.name, cn.depth, newPos.x + (cn.x - rn.x),
            newPos.y + (cn.y - rn.y), cn.r, cn.parent⟩ := by
      rw [updChildren_get, hn1j, horigri]
      refine congrArg some ?_
      beta_reduce
      rw [if_pos ⟨hd2, hdesc1⟩]
    have hn2ri :
        (updChildren ri newPos
          (originalPos nodes (packWidth / 2) (packHeight / 2) ri)
          (updAt ri (fun n => { n with x := newPos.x, y := newPos.y }) mid))[ri]? =
          some { rn with x := newPos.x, y := newPos.y } := by
      rw [updChildren_get, hn1ri]
      refine congrArg some ?_
      refine if_neg ?_
      intro hc
      have : ({ rn with x := newPos.x, y := newPos.y } : CNode).depth = rn.depth := rfl
      rw [this, hd1] at hc
      exact absurd hc.1 (by norm_num)
    have houtj := applyRegions_untouched _ _ nodes j cn hcn L2 _ out hres hn2shape
      (hcond_j L2 hsub2 hriL2)
    have houtri := applyRegions_untouched _ _ nodes ri rn hrn L2 _ out hres hn2shape
      (hcond_ri L2 hriL2)
    refine ⟨⟨cn.name, cn.depth, newPos.x + (cn.x - rn.x),
        newPos.y + (cn.y - rn.y), cn.r, cn.parent⟩,
      { rn with x := newPos.x, y := newPos.y }, ?_, ?_, rfl, rfl⟩
    · rw [houtj, hn2j]
    · rw [houtri, hn2ri]

/-- C1 counterexample. The claim demands, for every descendant, final
position = region's new centre + (descendant's packed position − region's
packed centre), exactly. With the region packed at `x = 0` (a JavaScript-falsy
coordinate), the code records the container centre `8` as the original x, so
the child lands at `26 + (2 - 8) = 20` while the claim demands
`26 + (2 - 0) = 28`. -/
theorem claim_C1_cex :
    positionRegionCircles ratSqrt nodesZero 16 12 =
      .ok [rootEuro, ⟨strNorthernEurope, 1, 26, 26, 1, some 0⟩,
        ⟨strIceland, 2, 20, 25, 1, some 1⟩]
    ∧ regionNE0.x = 0
    ∧ childIce0.x - regionNE0.x = 2
    ∧ (20 : ℚ) ≠ 26 + (childIce0.x - regionNE0.x) := by
  refine ⟨evalPosRegionZero, by norm_num [regionNE0], ?_, ?_⟩
  · norm_num [childIce0, regionNE0]
  · norm_num [childIce0, regionNE0]

/-- C1 witness: the amended rigid-translation equality on the concrete
truthy-coordinates run. -/
theorem claim_C1_witness :
    ∃ cn' rn',
      ([rootEuro, ⟨strNorthernEurope, 1, 26, 26, 1, some 0⟩,
        ⟨strIceland, 2, 27, 27, 1, some 1⟩] : List CNode)[2]? = some cn'
      ∧ ([rootEuro, ⟨strNorthernEurope, 1, 26, 26, 1, some 0⟩,
        ⟨strIceland, 2, 27, 27, 1, some 1⟩] : List CNode)[1]? = some rn'
      ∧ cn'.x = rn'.x + (childIce1.x - regionNE1.x)
      ∧ cn'.y = rn'.y + (childIce1.y - regionNE1.y) := by
  refine claim_C1_amended ratSqrt nodesOne 16 12 _ evalPosRegionOne 1 2 regionNE1
    childIce1 (by decide) (by decide) (by decide) (by decide) (by decide) ?_
    (by norm_num [regionNE1]) (by norm_num [regionNE1])
  intro ri' hri' hne
  rw [show regionIndices nodesOne = [1] from by decide] at hri'
  have hri1 : ri' = 1 := by simpa using hri'
  exact absurd hri1 hne

end Pack
